import Mathlib

/-!
Verification development for the `git-flow-action` repository.

The TypeScript sources under `src/modules/version-manager/index.ts`,
`src/modules/git-flow/handlers/feature.ts` and the GitHub gateway are
shallowly embedded below.  Text is modelled as `List Char` (JavaScript
strings), fallible operations return `Except` / `Option`, and the
side-effecting release pipeline is modelled as a function from an
oracle `World` (the responses of the GitHub API, the file system and
the shell) to a trace of emitted effect events plus a result.
-/

set_option autoImplicit false

namespace GitFlow

/-! ### JavaScript character classes

`isJsSpace` models the `\s` regex class (ASCII whitespace plus NBSP and
BOM; the uncommon Unicode space separators are not modelled).
`isLineTermJs` models the JavaScript line terminators used by the `m`
regex flag and by the `.` wildcard. -/

def isJsSpace (c : Char) : Bool :=
  c = ' ' || c = '\t' || c = '\n' || c = '\r' ||
  c = Char.ofNat 0x0b || c = Char.ofNat 0x0c ||
  c = Char.ofNat 0xa0 || c = Char.ofNat 0xfeff ||
  c = Char.ofNat 0x2028 || c = Char.ofNat 0x2029

def isLineTermJs (c : Char) : Bool :=
  c = '\n' || c = '\r' || c = Char.ofNat 0x2028 || c = Char.ofNat 0x2029

def isDigitCh (c : Char) : Bool := '0' ≤ c && c ≤ '9'

/-! ### VersionManagerService.extractVersionFromBranch

The source builds a dynamic regular expression

  new RegExp (carets) `^` + releasePrefix.replace(backslashed slash) +
  group of digits dot digits dot digits + `$`

and matches the branch name against it.  Only the first `/` of the
prefix is escaped (`String.prototype.replace` with a string pattern
replaces the first occurrence), and no other character of the prefix is
escaped, so the prefix is spliced into the pattern verbatim.  We model
the fragment of JavaScript regex syntax that such patterns can use:
literal characters, identity escapes, the `\d` class, the `.` wildcard
and the `+` quantifier.  Prefixes using regex constructs outside this
fragment (groups, classes, alternation, other quantifiers — all of
which produce patterns whose behaviour the spec never relies on) make
the parse fail and extraction reject, like an unmatchable pattern. -/

inductive RAtom where
  | lit (c : Char)
  | dot
  | digit
deriving DecidableEq, Repr

inductive RPiece where
  | once (a : RAtom)
  | plus (a : RAtom)
deriving DecidableEq, Repr

def matchRAtom : RAtom → Char → Bool
  | .lit c, d => c = d
  | .dot, d => !isLineTermJs d
  | .digit, d => isDigitCh d

/-- Atom denoted by an escaped character `\c` in the pattern.
`\d` is the digit class; the other regex class/escape letters are not
modelled; everything else is an identity escape. -/
def atomOfEsc (c : Char) : Option RAtom :=
  if c = 'd' then some .digit
  else if c = 'w' || c = 's' || c = 'b' || c = 'B' || c = 'D' ||
          c = 'S' || c = 'W' || c = 'k' || c = 'p' || c = 'P' ||
          c = 'u' || c = 'x' || c = 'c' then none
  else some (.lit c)

/-- A character the regex engine treats as itself: not a
metacharacter, not a dot, not a backslash.  Prefixes made of such
characters denote themselves in the version pattern. -/
def isLiteralChar (c : Char) : Bool :=
  !(c = '.' || c = '\\' || c = '+' || c = '*' || c = '?' || c = '(' ||
    c = ')' || c = '[' || c = ']' || c = Char.ofNat 0x7b ||
    c = Char.ofNat 0x7d || c = '^' || c = '$' || c = '|')

/-- Atom denoted by a bare pattern character: the wildcard for `.`, a
literal for a self-denoting character; the metacharacters that open
constructs outside the modelled fragment parse to `none`. -/
def atomOfChar (c : Char) : Option RAtom :=
  if c = '.' then some .dot
  else if isLiteralChar c then some (.lit c)
  else none

/-- Parse the escaped prefix part of the pattern into regex pieces: an
atom is a backslash escape or a bare character, and a following `+`
quantifies it.  A leading or dangling quantifier, like every construct
outside the fragment, is a parse failure. -/
def parseFuel : Nat → List Char → Option (List RPiece)
  | _, [] => some []
  | 0, _ :: _ => none
  | fuel + 1, c :: rest =>
    if c = '\\' then
      match rest with
      | [] => none
      | e :: rest2 =>
        match atomOfEsc e with
        | none => none
        | some a =>
          match rest2 with
          | [] => some [RPiece.once a]
          | q :: rest3 =>
            if q = '+' then
              (parseFuel fuel rest3).map (fun ps => RPiece.plus a :: ps)
            else
              (parseFuel fuel rest2).map (fun ps => RPiece.once a :: ps)
    else
      match atomOfChar c with
      | none => none
      | some a =>
        match rest with
        | [] => some [RPiece.once a]
        | q :: rest3 =>
          if q = '+' then
            (parseFuel fuel rest3).map (fun ps => RPiece.plus a :: ps)
          else
            (parseFuel fuel rest).map (fun ps => RPiece.once a :: ps)

/-- Parse the escaped prefix part of the pattern into regex pieces: an
atom is a backslash escape or a bare character, and a following `+`
quantifies it; a dangling backslash or leading quantifier, like every
construct outside the fragment, is a parse failure.  The fuel argument
(at least one unit per consumed atom) only makes the recursion
structural; the input length always suffices. -/
def parsePieces (s : List Char) : Option (List RPiece) :=
  parseFuel s.length s

/-- Model of `releasePrefix.replace(slash, backslash-slash)`: a string pattern to
`String.prototype.replace` replaces only the first occurrence. -/
def replaceFirstSlash : List Char → List Char
  | [] => []
  | c :: rest =>
    if c = '/' then '\\' :: '/' :: rest else c :: replaceFirstSlash rest

def takeDigitsL (s : List Char) : List Char × List Char :=
  (s.takeWhile isDigitCh, s.dropWhile isDigitCh)

/-- Does `s` match the anchored group tail
`[0-9]+ dot [0-9]+ dot [0-9]+ $` of the version pattern?  The greedy
`[0-9]+` is exactly maximal munch here because a digit run can never
extend past a literal dot. -/
def versionTailMatches (s : List Char) : Bool :=
  let p1 := takeDigitsL s
  if p1.1.isEmpty then false else
  match p1.2 with
  | '.' :: r2 =>
    let p2 := takeDigitsL r2
    if p2.1.isEmpty then false else
    match p2.2 with
    | '.' :: r4 =>
      let p3 := takeDigitsL r4
      !p3.1.isEmpty && p3.2.isEmpty
    | _ => false
  | _ => false

def firstSome {α β : Type} (f : α → Option β) : List α → Option β
  | [] => none
  | a :: as =>
    match f a with
    | some b => some b
    | none => firstSome f as

/-- Remainders after one or more repetitions of `a`, shortest first. -/
def atomRuns (a : RAtom) : List Char → List (List Char)
  | [] => []
  | c :: cs => if matchRAtom a c then cs :: atomRuns a cs else []

/-- Greedy order for `a+`: longest repetition first. -/
def plusRemsGreedy (a : RAtom) (s : List Char) : List (List Char) :=
  (atomRuns a s).reverse

/-- Match the prefix pieces against `s`; on success return the suffix
captured by the trailing version group (which is anchored by `$`, so
the capture is the whole remaining input). -/
def matchPieces : List RPiece → List Char → Option (List Char)
  | [], s => if versionTailMatches s then some s else none
  | .once _ :: _, [] => none
  | .once a :: ps, c :: cs => if matchRAtom a c then matchPieces ps cs else none
  | .plus a :: ps, s => firstSome (fun r => matchPieces ps r) (plusRemsGreedy a s)

/-- Model of `VersionManagerService.extractVersionFromBranch`, on char lists.
`none` models the thrown `Error`. -/
def extractVersionCore (branch pfx : List Char) : Option (List Char) :=
  match parsePieces (replaceFirstSlash pfx) with
  | none => none
  | some ps => matchPieces ps branch

/-- Model of `VersionManagerService.extractVersionFromBranch`. -/
def extractVersionFromBranch (branchName relPfx : String) : Option String :=
  (extractVersionCore branchName.toList relPfx.toList).map
    (fun l => String.mk l)

/-! ### VersionManagerService.updateMtaYamlVersion

`content.replace(version-line regex with g and m flags, version)`:
every match of `version:` at a line start, followed by greedy `\s*`
(which, being whitespace, may run across line terminators) and then
greedy `.*` (which stops at a line terminator), is replaced.  The
`try`/`catch` wrapper in the source is dead (the replace cannot
throw).  We model the global multiline scan as a four-state machine
over the character list: `lineStart` (the `^` anchor can match here),
`mid` (inside an unmatched line), `skipWs` (inside a match, consuming
`\s*`) and `skipRest` (inside a match, consuming `.*`).  After `\s*`
stops, the next character is non-whitespace, hence not a line
terminator, hence eaten by `.*`; so a match always ends either at the
end of the input or just before a line terminator, and scanning
resumes there. -/

inductive ScanSt where
  | lineStart
  | mid
  | skipWs
  | skipRest
  | consume (k : Nat)
deriving DecidableEq, Repr

def verKey : List Char := ['v', 'e', 'r', 's', 'i', 'o', 'n', ':']

def nextScanSt (c : Char) : ScanSt :=
  if isLineTermJs c then .lineStart else .mid

def scanGo (v : List Char) : ScanSt → List Char → List Char
  | _, [] => []
  | .lineStart, c :: rest =>
    if verKey.isPrefixOf (c :: rest) then
      ('v' :: 'e' :: 'r' :: 's' :: 'i' :: 'o' :: 'n' :: ':' :: ' ' :: v) ++
        scanGo v (.consume 7) rest
    else c :: scanGo v (nextScanSt c) rest
  | .mid, c :: rest => c :: scanGo v (nextScanSt c) rest
  | .consume (k + 1), _ :: rest => scanGo v (.consume k) rest
  | .consume 0, c :: rest =>
    -- state after the literal `version:` of a match: behave as `skipWs`
    if isJsSpace c then scanGo v (.skipWs) rest else scanGo v (.skipRest) rest
  | .skipWs, c :: rest =>
    if isJsSpace c then scanGo v (.skipWs) rest else scanGo v (.skipRest) rest
  | .skipRest, c :: rest =>
    if isLineTermJs c then c :: scanGo v (.lineStart) rest
    else scanGo v (.skipRest) rest

/-- Model of `VersionManagerService.updateMtaYamlVersion`, on char lists. -/
def updateMtaCore (content v : List Char) : List Char :=
  scanGo v .lineStart content

/-- Model of `VersionManagerService.updateMtaYamlVersion`. -/
def updateMtaYamlVersion (content version : String) : String :=
  String.mk (updateMtaCore content.toList version.toList)

/-! ### Release.createOrUpdateChangelog — the pure splice

`split`, `join` and the header search of the source, on char lists. -/

def splitNl : List Char → List (List Char)
  | [] => [[]]
  | '\n' :: rest => [] :: splitNl rest
  | c :: rest =>
    match splitNl rest with
    | [] => [[c]]
    | l :: ls => (c :: l) :: ls

def joinNl : List (List Char) → List Char
  | [] => []
  | [l] => l
  | l :: ls => l ++ '\n' :: joinNl ls

/-- Model of `line.trim()` (JavaScript `trim` strips `\s` characters). -/
def jsTrim (l : List Char) : List Char :=
  ((l.dropWhile isJsSpace).reverse.dropWhile isJsSpace).reverse

/-- The predicate of the `findIndex` callback, minus its `index > 0`
conjunct: the line is non-blank and does not start with `#`. -/
def lineQualifies (l : List Char) : Bool :=
  !(jsTrim l).isEmpty && !(['#'].isPrefixOf l)

def findIdxFrom : Nat → List (List Char) → Option Nat
  | _, [] => none
  | i, l :: ls =>
    if i > 0 && lineQualifies l then some i else findIdxFrom (i + 1) ls

/-- Model of `lines.findIndex((line, index) => index > 0 && line.trim() !== empty
&& !line.startsWith(hash))`. -/
def findHeaderEnd (lines : List (List Char)) : Option Nat :=
  findIdxFrom 0 lines

/-- Contiguous-substring search (JavaScript `String.prototype.includes`). -/
def listInfixOf (needle : List Char) : List Char → Bool
  | [] => needle.isEmpty
  | c :: rest => needle.isPrefixOf (c :: rest) || listInfixOf needle rest

def chlHeading : List Char := "# Changelog".toList

/-- Model of `existingContent.includes(chlHeading)`. -/
def containsChlHeading (s : List Char) : Bool :=
  listInfixOf chlHeading s

def chlNewDocHeader : List Char :=
  ("# Changelog\n\nAll notable changes to this project will be " ++
   "documented in this file.\n\n").toList

/-- The changelog-content computation of `createOrUpdateChangelog`
(source lines 369–388): splice `newEntry` into `existing`. -/
def spliceChangelog (existing newEntry : List Char) : List Char :=
  if containsChlHeading existing then
    let lines := splitNl existing
    let cut : Nat :=
      match findHeaderEnd lines with
      | some j => if j > 0 then j else 4
      | none => 4
    joinNl (lines.take cut) ++ ('\n' :: '\n' :: []) ++ newEntry ++
      joinNl (lines.drop cut)
  else
    chlNewDocHeader ++ newEntry ++ existing

/-! ### Feature.test and the data model records -/

structure Branches where
  current : String
  target : String
  main : String
  development : String
deriving DecidableEq, Repr

structure BranchPfxs where
  bugfix : String
  feature : String
  hotfix : String
  release : String
  support : String
  tag : String
deriving DecidableEq, Repr

/-- Model of `branchName.includes(sub)`. -/
def strIncludes (s sub : String) : Bool :=
  listInfixOf sub.toList s.toList

/-- Model of `Feature.test`: the current branch contains the feature prefix and
the target branch is the string literal `development` or the string
literal `quality`. -/
def featureTest (bs : Branches) (pfx : BranchPfxs) : Bool :=
  strIncludes bs.current pfx.feature &&
    (bs.target == "development" || bs.target == "quality")

/-- The feature predicate as the spec states it: the target is the
development branch of the `BranchSet` or a quality branch. -/
def featureTestSpec (bs : Branches) (pfx : BranchPfxs) : Bool :=
  strIncludes bs.current pfx.feature &&
    (bs.target == bs.development || bs.target == "quality")

/-! ### Thrown-error messages (as in the source, apostrophes elided) -/

def badBranchMsg (b : String) : String :=
  "Branch name " ++ b ++ " does not match release pattern"

def prNotFoundMsg (b : String) : String :=
  "No Pull Request found for release branch " ++ b

def mtaNoDirMsg : String :=
  "MTA project detected but mta_archives directory not found. " ++
  "Build may have failed."

def mtaNoFileMsg : String :=
  "MTA project detected but no MTAR files found in mta_archives " ++
  "directory. Build may have failed."

def stdNoBuildMsg : String :=
  "Build files not found after build. Expected lib/main/index.js"

/-! ### The release pipeline

`Release.handle` and its helpers are effectful: they call the GitHub
gateway, the local file system and the shell.  We model a run as a
function from a `World` — the responses every external call would give
in this run — to a `Res`: the list of emitted effect events (the
mutating calls, in order) plus an `Except` result (a thrown error or
the returned value).  Read-only calls (file reads, SHA lookups,
pull-request queries, existence checks) consult the world but emit no
event. -/

inductive Ev where
  | merge (src dst : String)
  | tagCreate (tag sha : String)
  | branchDel (branch : String)
  | updFile (path : String)
  | writeChangelog (content : String)
  | execCmd (cmd : String)
  | renameFile (src dst : String)
  | releaseCreate (version : String)
  | uploadAsset (name : String)
deriving DecidableEq, Repr

def Res (α : Type) : Type := List Ev × Except String α

def okR {α : Type} (a : α) : Res α := ([], .ok a)

def errR {α : Type} (e : String) : Res α := ([], .error e)

def liftE {α : Type} (x : Except String α) : Res α := ([], x)

def liftOpt {α : Type} (x : Option α) (e : String) : Res α :=
  ([], match x with | some a => Except.ok a | none => Except.error e)

/-- An attempted mutating call: the event is emitted, the world decides
the outcome. -/
def attemptEv {α : Type} (ev : Ev) (x : Except String α) : Res α := ([ev], x)

def bindR {α β : Type} (m : Res α) (f : α → Res β) : Res β :=
  match m.2 with
  | .error e => (m.1, .error e)
  | .ok a => (m.1 ++ (f a).1, (f a).2)

/-- A swallowing `try`/`catch`: the events up to the failure remain,
the error is discarded. -/
def catchR (m : Res Unit) : Res Unit := (m.1, .ok ())

structure PRItem where
  num : Nat
  title : String
  body : Option String
  url : String
deriving DecidableEq, Repr

structure PRDetail where
  body : Option String
  title : Option String
  changedFiles : Option Nat
  commits : Option Nat
deriving DecidableEq, Repr

structure World where
  branches : Branches
  pfxs : BranchPfxs
  owner : String
  cwd : String
  /-- Local `package.json`: `none` if absent, otherwise the outcome of
  reading and parsing it, yielding its `name` field. -/
  pkgJsonLocal : Option (Except String (Option String))
  getFileContent : String → String → Except String String
  /-- Outcome of `VersionManagerService.updatePackageJsonVersion`
  (JSON parse, version patch, re-serialisation — not embedded;
  an error models the thrown format failure). -/
  pkgJsonPatch : String → String → Except String String
  getFileSha : String → String → Except String String
  /-- Model of `updateFile path content branch sha` (commit message elided). -/
  updateFile : String → String → String → String → Except String Unit
  mergeRes : String → String → Except String String
  createTagRes : String → String → Except String Unit
  deleteRes : String → Except String Unit
  pullsList : String → Except String (List PRItem)
  pullsGet : Nat → Except String PRDetail
  createReleaseRes : String → Except String Nat
  uploadRes : String → Except String Unit
  /-- Local `CHANGELOG.md` content, if present. -/
  chlFile : Option String
  chlWriteRes : Except String Unit
  gitDirExists : Bool
  /-- Model of `execSync` in the changelog commit block (per-call-site oracle). -/
  gitExec : String → Except String Unit
  /-- Model of `execSync` for install, build and zip commands. -/
  execShell : String → Except String Unit
  pkgLockExists : Bool
  yarnLockExists : Bool
  mtaYamlExists : Bool
  /-- Model of `mta_archives` directory listing, `none` if the directory is
  missing. -/
  mtaArchivesDir : Option (List String)
  renameRes : String → String → Except String Unit
  libMainExists : Bool
  /-- Model of `fs.existsSync` for the release artifact path. -/
  fileExists : String → Bool

/-! #### Release.getPRInfo -/

/-- Model of `branch.replace(anchored literal release-slash regex, empty)`:
strips the hardcoded `release/` prefix (not the configured one). -/
def stripReleaseLit (b : String) : String :=
  if "release/".toList.isPrefixOf b.toList then String.mk (b.toList.drop 8)
  else b

/-- The head-reference candidate encodings, in the order tried. -/
def prCandidates (owner b : String) : List String :=
  [b, stripReleaseLit b, owner ++ ":" ++ b]

/-- JavaScript `a || b` on a possibly-null string. -/
def jsOrStr (a : Option String) (b : String) : String :=
  match a with
  | none => b
  | some s => if s = "" then b else s

def jsTrimStr (s : String) : String := String.mk (jsTrim s.toList)

/-- JavaScript `n || dflt` for a possibly-null number rendered into a
template (`0` is falsy). -/
def jsOrNat (n : Option Nat) (dflt : String) : String :=
  match n with
  | none => dflt
  | some k => if k = 0 then dflt else toString k

/-- The `enhancedBody` computation of `getPRInfo`. -/
def mkEnhancedBody (p : PRItem) (d : PRDetail) : String :=
  let base := jsOrStr d.body (jsOrStr p.body "")
  if jsTrimStr base = "" then
    "**" ++ jsOrStr d.title p.title ++ "**\n\n" ++
    "This release includes changes from PR #" ++ toString p.num ++
    ".\n\n**Changed files:** " ++ jsOrNat d.changedFiles "Unknown" ++
    " files modified\n**Commits:** " ++ jsOrNat d.commits "Multiple" ++
    " commits included\n\nFor detailed information, please check the " ++
    "pull request."
  else base

/-- The candidate loop: list the PRs whose head is the candidate; any
error, or an empty result, moves on to the next candidate; a non-empty
result fetches the detail of its first PR (an error there also moves
on, because the whole iteration body sits in the per-candidate
`try`/`catch`). -/
def resolvePRList (w : World) : List String → Option (String × String)
  | [] => none
  | c :: cs =>
    match w.pullsList c with
    | .error _ => resolvePRList w cs
    | .ok [] => resolvePRList w cs
    | .ok (p :: _) =>
      match w.pullsGet p.num with
      | .error _ => resolvePRList w cs
      | .ok d => some (mkEnhancedBody p d, p.url)

/-- Model of `Release.getPRInfo` (read-only, so plain `Except`). -/
def getPRInfoR (w : World) (branch : String) : Except String (String × String) :=
  match resolvePRList w (prCandidates w.owner branch) with
  | some info => .ok info
  | none => .error (prNotFoundMsg branch)

/-! #### The release steps -/

/-- Project-name resolution from the local `package.json`
(`packageContent.name || unknown-project`; an empty name is falsy). -/
def projectNameOf (w : World) : Except String String :=
  match w.pkgJsonLocal with
  | none => .ok "unknown-project"
  | some (.error e) => .error e
  | some (.ok nm) =>
    .ok (match nm with
         | some n => if n = "" then "unknown-project" else n
         | none => "unknown-project")

/-- Model of `Release.updatePackageJson` (its `try`/`catch` rethrows, which is
the identity on the result). -/
def updatePackageJsonR (w : World) (version branch : String) : Res Unit :=
  bindR (liftE (w.getFileContent "package.json" branch)) fun content =>
  bindR (liftE (w.pkgJsonPatch content version)) fun updated =>
  bindR (liftE (w.getFileSha "package.json" branch)) fun sha =>
  attemptEv (.updFile "package.json") (w.updateFile "package.json" updated branch sha)

/-- Model of `Release.updateVersionFiles` (re-extracts the version; its
`try`/`catch` rethrows). -/
def updateVersionFilesR (w : World) : Res Unit :=
  bindR (liftOpt (extractVersionFromBranch w.branches.current w.pfxs.release)
          (badBranchMsg w.branches.current)) fun v =>
  updatePackageJsonR w v w.branches.current

/-- The new changelog entry template (the magnifier emoji of the
source template is omitted). -/
def mkNewEntry (version body url : String) : String :=
  "# V" ++ version ++ "\n\nThis release includes:\n\n" ++
  (if body = "" then "Release updates and improvements" else body) ++
  "\n\n" ++
  (if url = "" then "" else "[See PR](" ++ url ++ ")") ++
  "\n\n---\n\n"

/-- The git-commit block of `createOrUpdateChangelog`: four `execSync`
calls inside their own swallowing `try`/`catch` (command strings
abbreviated to their salient part). -/
def chlCommitBlock (w : World) (version : String) : Res Unit :=
  if w.gitDirExists then
    catchR (
      bindR (attemptEv (.execCmd "git config user.name")
              (w.gitExec "git config user.name")) fun _ =>
      bindR (attemptEv (.execCmd "git config user.email")
              (w.gitExec "git config user.email")) fun _ =>
      bindR (attemptEv (.execCmd "git add CHANGELOG.md")
              (w.gitExec "git add CHANGELOG.md")) fun _ =>
      attemptEv (.execCmd ("git commit changelog " ++ version))
        (w.gitExec ("git commit changelog " ++ version)))
  else okR ()

/-- The body of `createOrUpdateChangelog` before its outer `catch`. -/
def changelogInner (w : World) (version branch : String) : Res Unit :=
  bindR (liftE (getPRInfoR w branch)) fun info =>
  let entry := mkNewEntry version info.1 info.2
  let existing := match w.chlFile with | some s => s | none => ""
  let newContent := String.mk (spliceChangelog existing.toList entry.toList)
  bindR (attemptEv (.writeChangelog newContent) w.chlWriteRes) fun _ =>
  chlCommitBlock w version

/-- Model of `Release.createOrUpdateChangelog`: every failure inside is caught
and swallowed. -/
def changelogStepR (w : World) (version branch : String) : Res Unit :=
  catchR (changelogInner w version branch)

/-- Model of `Release.merge`: current into development, then current into main;
the second SHA is returned. -/
def mergeR (w : World) : Res String :=
  bindR (attemptEv (.merge w.branches.current w.branches.development)
          (w.mergeRes w.branches.current w.branches.development)) fun _ =>
  attemptEv (.merge w.branches.current w.branches.main)
    (w.mergeRes w.branches.current w.branches.main)

/-- Remove every (non-overlapping, left-to-right) occurrence of `pat`
from the list; the fuel argument only makes the recursion structural
and is instantiated with the input length. -/
def removeAllGo (pat : List Char) : Nat → List Char → List Char
  | _, [] => []
  | 0, s => s
  | fuel + 1, c :: rest =>
    if pat.isPrefixOf (c :: rest) then
      removeAllGo pat fuel (rest.drop (pat.length - 1))
    else c :: removeAllGo pat fuel rest

/-- Model of `s.split(pat).join(empty)` (for an empty pattern the split yields
the characters, so the join is the identity). -/
def jsRemoveAll (s pat : String) : String :=
  if pat.toList.isEmpty then s
  else String.mk (removeAllGo pat.toList s.toList.length s.toList)

/-- Model of `Release.getTagName`: `currentBranch.split(p).join(empty)` removes
every occurrence of the release prefix, then the tag prefix is
prepended. -/
def getTagName (cur relPfxStr tagPfxStr : String) : String :=
  tagPfxStr ++ jsRemoveAll cur relPfxStr

/-- Model of `Release.createTag`. -/
def createTagR (w : World) (sha : String) : Res Unit :=
  let tg := getTagName w.branches.current w.pfxs.release w.pfxs.tag
  attemptEv (.tagCreate tg sha) (w.createTagRes tg sha)

/-- Model of `Release.installDependencies`. -/
def installDepsR (w : World) : Res Unit :=
  if w.pkgLockExists then
    attemptEv (.execCmd "npm ci") (w.execShell "npm ci")
  else if w.yarnLockExists then
    attemptEv (.execCmd "yarn install --frozen-lockfile")
      (w.execShell "yarn install --frozen-lockfile")
  else
    attemptEv (.execCmd "npm install") (w.execShell "npm install")

/-- Model of `Release.runBuild`. -/
def runBuildR (w : World) : Res Unit :=
  if w.yarnLockExists then
    attemptEv (.execCmd "yarn build") (w.execShell "yarn build")
  else
    attemptEv (.execCmd "npm run build") (w.execShell "npm run build")

/-- Model of `Release.updateMtaYaml`: read `mta.yaml` from the branch, patch the
version (`updateMtaYamlVersion`), write it back; every failure is
caught and swallowed because the file might not exist in all
projects. -/
def updateMtaYamlR (w : World) (version branch : String) : Res Unit :=
  catchR (
    bindR (liftE (w.getFileContent "mta.yaml" branch)) fun content =>
    let updated := updateMtaYamlVersion content version
    bindR (liftE (w.getFileSha "mta.yaml" branch)) fun sha =>
    attemptEv (.updFile "mta.yaml") (w.updateFile "mta.yaml" updated branch sha))

/-- Model of `file.endsWith(suffixText)`. -/
def strEndsWith (s t : String) : Bool :=
  t.toList.reverse.isPrefixOf s.toList.reverse

def mtaDirPath (w : World) : String := w.cwd ++ "/mta_archives"

def mtaOrigPath (w : World) (f : String) : String := mtaDirPath w ++ "/" ++ f

def mtaVersionedPath (w : World) (n v : String) : String :=
  mtaDirPath w ++ "/" ++ n ++ "-v" ++ v ++ ".mtar"

def zipCmd (releaseFileName : String) : String :=
  "zip -r " ++ releaseFileName ++ " lib/ action.yml package.json README.md LICENSE"

/-- Model of `Release.buildProject`.  `this.releaseFilePath`, an instance field
in the source, is modelled as the returned value.  The outer
`try`/`catch` and the MTAR-processing `try`/`catch` both rethrow,
which is the identity on the result. -/
def buildProjectR (w : World) (version projectName : String) : Res String :=
  bindR (installDepsR w) fun _ =>
  bindR (runBuildR w) fun _ =>
  if w.mtaYamlExists then
    match w.mtaArchivesDir with
    | none =>
      errR mtaNoDirMsg
    | some files =>
      match files.filter (fun f => strEndsWith f ".mtar") with
      | [] =>
        errR mtaNoFileMsg
      | f :: _ =>
        let orig := mtaOrigPath w f
        let versioned := mtaVersionedPath w projectName version
        bindR (attemptEv (.renameFile orig versioned)
                (w.renameRes orig versioned)) fun _ =>
        bindR (updateMtaYamlR w version w.branches.current) fun _ =>
        okR versioned
  else
    if w.libMainExists then
      let rf := projectName ++ "-v" ++ version ++ ".zip"
      bindR (attemptEv (.execCmd (zipCmd rf)) (w.execShell (zipCmd rf))) fun _ =>
      okR rf
    else
      errR stdNoBuildMsg

def splitSlash : List Char → List (List Char)
  | [] => [[]]
  | '/' :: rest => [] :: splitSlash rest
  | c :: rest =>
    match splitSlash rest with
    | [] => [[c]]
    | l :: ls => (c :: l) :: ls

/-- Model of `path.basename`. -/
def baseName (p : String) : String :=
  match (splitSlash p.toList).getLast? with
  | some b => String.mk b
  | none => p

/-- Model of `Release.createGitHubRelease` (its `try`/`catch` rethrows; the
release body template is built from the PR info but not observed by
any claim, so it is not reproduced here). -/
def createGitHubReleaseR (w : World) (version _projectName relFilePath : String) :
    Res Unit :=
  bindR (liftE (getPRInfoR w ("release/" ++ version))) fun _info =>
  bindR (attemptEv (.releaseCreate version) (w.createReleaseRes version)) fun _rid =>
  if w.fileExists relFilePath then
    attemptEv (.uploadAsset (baseName relFilePath)) (w.uploadRes (baseName relFilePath))
  else okR ()

/-- Model of `Release.handle`. -/
def handleR (w : World) : Res String :=
  bindR (liftOpt (extractVersionFromBranch w.branches.current w.pfxs.release)
          (badBranchMsg w.branches.current)) fun version =>
  bindR (liftE (projectNameOf w)) fun projectName =>
  bindR (updateVersionFilesR w) fun _ =>
  bindR (changelogStepR w version w.branches.current) fun _ =>
  bindR (mergeR w) fun sha =>
  bindR (createTagR w sha) fun _ =>
  bindR (buildProjectR w version projectName) fun relPath =>
  bindR (createGitHubReleaseR w version projectName relPath) fun _ =>
  bindR (attemptEv (.branchDel w.branches.current)
          (w.deleteRes w.branches.current)) fun _ =>
  okR sha

/-- Comparison pipeline for the non-fatality of the changelog step:
`handleR` with the changelog step removed. -/
def handleSansChangelogR (w : World) : Res String :=
  bindR (liftOpt (extractVersionFromBranch w.branches.current w.pfxs.release)
          (badBranchMsg w.branches.current)) fun version =>
  bindR (liftE (projectNameOf w)) fun projectName =>
  bindR (updateVersionFilesR w) fun _ =>
  bindR (mergeR w) fun sha =>
  bindR (createTagR w sha) fun _ =>
  bindR (buildProjectR w version projectName) fun relPath =>
  bindR (createGitHubReleaseR w version projectName relPath) fun _ =>
  bindR (attemptEv (.branchDel w.branches.current)
          (w.deleteRes w.branches.current)) fun _ =>
  okR sha

/-- Comparison pipeline for the non-fatality of the descriptor patch:
`buildProjectR` with the `updateMtaYaml` call removed. -/
def buildSansMtaPatchR (w : World) (version projectName : String) : Res String :=
  bindR (installDepsR w) fun _ =>
  bindR (runBuildR w) fun _ =>
  if w.mtaYamlExists then
    match w.mtaArchivesDir with
    | none =>
      errR mtaNoDirMsg
    | some files =>
      match files.filter (fun f => strEndsWith f ".mtar") with
      | [] =>
        errR mtaNoFileMsg
      | f :: _ =>
        let orig := mtaOrigPath w f
        let versioned := mtaVersionedPath w projectName version
        bindR (attemptEv (.renameFile orig versioned)
                (w.renameRes orig versioned)) fun _ =>
        okR versioned
  else
    if w.libMainExists then
      let rf := projectName ++ "-v" ++ version ++ ".zip"
      bindR (attemptEv (.execCmd (zipCmd rf)) (w.execShell (zipCmd rf))) fun _ =>
      okR rf
    else
      errR stdNoBuildMsg

/-! ### Spec-side comparison definitions -/

/-- Stripping a configured prefix, as the spec words it for the
pull-request candidate encodings. -/
def stripPfxSpec (p b : String) : String :=
  if p.toList.isPrefixOf b.toList then String.mk (b.toList.drop p.toList.length)
  else b

/-- Line-wise version replacement: what the global multiline replace
does to a single line that stays within itself. -/
def mtaLineReplace (v l : List Char) : List Char :=
  if verKey.isPrefixOf l then
    'v' :: 'e' :: 'r' :: 's' :: 'i' :: 'o' :: 'n' :: ':' :: ' ' :: v
  else l

/-- The candidate yields no pull request: listing it errors or returns
the empty list. -/
def prNoResult (w : World) (c : String) : Prop :=
  ∀ p ps, w.pullsList c ≠ Except.ok (p :: ps)

/-! ### Concrete worlds for witnesses and counterexamples -/

def okPR : PRItem :=
  { num := 7, title := "T", body := some "B", url := "u" }

def okDet : PRDetail :=
  { body := some "B", title := some "T", changedFiles := some 3,
    commits := some 2 }

def stdPfxs : BranchPfxs :=
  { bugfix := "bugfix/", feature := "feature/", hotfix := "hotfix/",
    release := "release/", support := "support/", tag := "v" }

/-- A world in which every external call succeeds and the project is a
standard (non-MTA) build. -/
def okWorld : World :=
  { branches :=
      { current := "release/1.2.3", target := "main", main := "main",
        development := "development" }
    pfxs := stdPfxs
    owner := "o"
    cwd := "/w"
    pkgJsonLocal := some (Except.ok (some "proj"))
    getFileContent := fun _ _ => .ok "content"
    pkgJsonPatch := fun _ _ => .ok "patched"
    getFileSha := fun _ _ => .ok "sha0"
    updateFile := fun _ _ _ _ => .ok ()
    mergeRes := fun _ t => .ok ("sha-" ++ t)
    createTagRes := fun _ _ => .ok ()
    deleteRes := fun _ => .ok ()
    pullsList := fun _ => .ok [okPR]
    pullsGet := fun _ => .ok okDet
    createReleaseRes := fun _ => .ok 1
    uploadRes := fun _ => .ok ()
    chlFile := some "# Changelog\n\ndesc\n\n# V1\nold"
    chlWriteRes := .ok ()
    gitDirExists := true
    gitExec := fun _ => .ok ()
    execShell := fun _ => .ok ()
    pkgLockExists := true
    yarnLockExists := false
    mtaYamlExists := false
    mtaArchivesDir := none
    renameRes := fun _ _ => .ok ()
    libMainExists := true
    fileExists := fun _ => true }

/-- Model of `okWorld` turned into an MTA project with one archive file. -/
def mtaWorld : World :=
  { okWorld with mtaYamlExists := true, mtaArchivesDir := some ["a.mtar"] }

/-- A release branch whose suffix is not a version literal. -/
def c9World : World :=
  { okWorld with branches :=
      { current := "release/abc", target := "main", main := "main",
        development := "development" } }

/-- A configured release prefix that differs from the literal
`release/`, and a pull request only findable under the
prefix-stripped head reference. -/
def c6World : World :=
  { okWorld with
    branches :=
      { current := "rel/1.2.3", target := "main", main := "main",
        development := "development" }
    pfxs := { stdPfxs with release := "rel/" }
    pullsList := fun c => if c = "1.2.3" then .ok [okPR] else .ok [] }

def c7Branches : Branches :=
  { current := "feature/login", target := "develop", main := "main",
    development := "develop" }

/-! ## Helper lemmas about the effect monad -/

theorem bindR_snd {α β : Type} (m : Res α) (f : α → Res β) :
    (bindR m f).2 = match m.2 with
      | Except.error e => Except.error e
      | Except.ok a => (f a).2 := by
  cases h : m.2 <;> simp [bindR, h]

theorem bindR_ok_elim {α β : Type} {m : Res α} {f : α → Res β} {b : β}
    (h : (bindR m f).2 = Except.ok b) :
    ∃ a, m.2 = Except.ok a ∧ (f a).2 = Except.ok b ∧
      bindR m f = (m.1 ++ (f a).1, (f a).2) := by
  cases hm : m.2 with
  | error e => simp [bindR, hm] at h
  | ok a =>
    refine ⟨a, by simp [hm], ?_, ?_⟩
    · simpa [bindR, hm] using h
    · simp [bindR, hm]

theorem mem_bindR {α β : Type} {m : Res α} {f : α → Res β} {ev : Ev}
    (h : ev ∈ (bindR m f).1) :
    ev ∈ m.1 ∨ ∃ a, m.2 = Except.ok a ∧ ev ∈ (f a).1 := by
  cases hm : m.2 with
  | error e =>
    left
    simpa [bindR, hm] using h
  | ok a =>
    simp [bindR, hm] at h
    rcases h with h | h
    · exact Or.inl h
    · exact Or.inr ⟨a, rfl, h⟩

theorem liftOpt_snd_ok {α : Type} {o : Option α} {e : String} {a : α} :
    (liftOpt o e).2 = Except.ok a ↔ o = some a := by
  cases o <;> simp [liftOpt]

theorem catchR_snd (m : Res Unit) : (catchR m).2 = Except.ok () := rfl

theorem changelogStepR_snd (w : World) (v b : String) :
    (changelogStepR w v b).2 = Except.ok () := rfl

theorem updateMtaYamlR_snd (w : World) (v b : String) :
    (updateMtaYamlR w v b).2 = Except.ok () := rfl

/-! ## C7 — the feature workflow predicate -/

/-- C7 counterexample: a `BranchSet` whose configured development
branch is named `develop`.  The target equals the development branch
and the current branch contains the feature prefix, so the claim
requires the predicate to accept, but `Feature.test` compares the
target against the string literal `development` and rejects. -/
theorem c7_feature_test_counterexample :
    featureTest c7Branches stdPfxs = false ∧
    c7Branches.target = c7Branches.development ∧
    strIncludes c7Branches.current stdPfxs.feature = true ∧
    featureTestSpec c7Branches stdPfxs = true := by
  decide

/-- C7 (amended): for every `BranchSet` and `BranchPrefixes`, the
feature predicate accepts iff the current branch contains the feature
prefix and the target branch is the literal name `development` or the
literal name `quality` (the configured development branch is not
consulted). -/
theorem c7_feature_test (bs : Branches) (pfx : BranchPfxs) :
    featureTest bs pfx = true ↔
      (strIncludes bs.current pfx.feature = true ∧
       (bs.target = "development" ∨ bs.target = "quality")) := by
  simp [featureTest, Bool.and_eq_true, Bool.or_eq_true]

theorem c7_feature_test_witness :
    featureTest
      { current := "feature/x", target := "development", main := "main",
        development := "development" } stdPfxs = true :=
  (c7_feature_test _ _).mpr ⟨by decide, Or.inl rfl⟩

/-! ## C4 — changelog failures are swallowed -/

/-- C4: the changelog step always returns success (its `try`/`catch`
swallows every failure inside reading, splicing, writing and
committing), and the run's result — return value or abort — is
exactly that of the pipeline with the changelog step removed. -/
theorem c4_changelog_nonfatal (w : World) (v b : String) :
    (changelogStepR w v b).2 = Except.ok () ∧
    (handleR w).2 = (handleSansChangelogR w).2 := by
  refine ⟨rfl, ?_⟩
  simp only [handleR, handleSansChangelogR, bindR_snd, changelogStepR_snd,
    liftOpt, liftE]

/-! ## C9 — a malformed release branch has no side effects -/

/-- C9: when version extraction fails on the current branch, `handle`
aborts with the extraction error and the event trace is empty: no
merge, delete, tag or file-update gateway call is made. -/
theorem c9_bad_branch_no_effects (w : World)
    (h : extractVersionFromBranch w.branches.current w.pfxs.release = none) :
    handleR w = ([], Except.error (badBranchMsg w.branches.current)) := by
  simp [handleR, bindR, liftOpt, h]

theorem c9_bad_branch_no_effects_witness :
    extractVersionFromBranch c9World.branches.current c9World.pfxs.release
      = none ∧
    handleR c9World = ([], Except.error (badBranchMsg "release/abc")) :=
  ⟨by decide, c9_bad_branch_no_effects c9World (by decide)⟩

/-! ## C10 — descriptor-patch failures are swallowed -/

/-- C10: the `mta.yaml` update step always returns success (read,
patch and commit failures are all caught inside it), and the build
step's result is exactly that of the build with the descriptor patch
removed. -/
theorem c10_mta_patch_nonfatal (w : World) (v b n : String) :
    (updateMtaYamlR w v b).2 = Except.ok () ∧
    (buildProjectR w v n).2 = (buildSansMtaPatchR w v n).2 := by
  refine ⟨rfl, ?_⟩
  simp only [buildProjectR, buildSansMtaPatchR, bindR_snd]
  rcases hI : (installDepsR w).2 with eI | uI
  · simp
  · rcases hB : (runBuildR w).2 with eB | uB
    · simp
    · cases hM : w.mtaYamlExists
      · simp [hM]
      · simp only [hM, if_true]
        rcases hD : w.mtaArchivesDir with _ | files
        · simp
        · rcases hF : files.filter (fun f => strEndsWith f ".mtar") with _ | ⟨f, fs⟩
          · simp [hF]
          · simp [hF, bindR_snd, updateMtaYamlR_snd]

/-! ## C1 — version extraction (counterexample part) -/

/-- C1 counterexample: the release prefix `v+` is spliced into the
pattern unescaped, so `v+` becomes the regex one-or-more-v, which does
not match the branch name `v+1.2.3` even though that branch is exactly
the prefix followed by the version literal `1.2.3`; extraction fails
where the claim requires it to return `1.2.3`. -/
theorem c1_extract_version_counterexample :
    extractVersionFromBranch "v+1.2.3" "v+" = none ∧
    "v+1.2.3" = "v+" ++ "1.2.3" ∧
    versionTailMatches "1.2.3".toList = true := by
  decide

/-! ## C8 — descriptor version patch (counterexample part) -/

/-- C8 counterexample: the replace uses the `g` (global) flag, so a
content with two lines matching the version pattern has both replaced,
where the claim requires only the first to change. -/
theorem c8_update_mta_counterexample :
    updateMtaYamlVersion "version: 1\nversion: 2" "9.9.9" =
      "version: 9.9.9\nversion: 9.9.9" ∧
    updateMtaYamlVersion "version: 1\nversion: 2" "9.9.9" ≠
      "version: 9.9.9\nversion: 2" := by
  decide

/-! ## C6 — pull-request head-reference resolution -/

theorem resolvePRList_none {w : World} :
    ∀ cs : List String, (∀ c ∈ cs, prNoResult w c) →
      resolvePRList w cs = none := by
  intro cs
  induction cs with
  | nil => intro _; rfl
  | cons c cs ih =>
    intro h
    have hc : prNoResult w c := h c (by simp)
    have hrest := ih (fun d hd => h d (by simp [hd]))
    cases hl : w.pullsList c with
    | error e => simpa [resolvePRList, hl] using hrest
    | ok l =>
      cases l with
      | nil => simpa [resolvePRList, hl] using hrest
      | cons p ps => exact absurd hl (hc p ps)

/-- C6 counterexample: with a configured release prefix `rel/` and a
pull request registered only under the prefix-stripped head reference
`1.2.3`, resolution following the claim's candidate list (which strips
the configured prefix) succeeds, but the code — which strips only the
literal `release/` — tries `rel/1.2.3` twice and the owner-qualified
form, finds nothing, and fails. -/
theorem c6_pr_lookup_counterexample :
    getPRInfoR c6World "rel/1.2.3" =
      Except.error (prNotFoundMsg "rel/1.2.3") ∧
    c6World.pfxs.release = "rel/" ∧
    stripPfxSpec c6World.pfxs.release "rel/1.2.3" = "1.2.3" ∧
    resolvePRList c6World
      ["rel/1.2.3", stripPfxSpec c6World.pfxs.release "rel/1.2.3",
       c6World.owner ++ ":" ++ "rel/1.2.3"] =
      some (mkEnhancedBody okPR okDet, okPR.url) := by
  refine ⟨?_, rfl, ?_, ?_⟩
  · rfl
  · decide
  · decide

/-- C6 (amended): pull-request resolution tries the raw branch name,
the branch with the **literal** `release/` prefix stripped (the
configured release prefix is not consulted), and the owner-qualified
form, in that order; the first candidate whose listing yields at least
one pull request (and whose detail fetch succeeds) supplies its first
pull request; if no candidate yields a result the lookup throws, and
the release-publication step — which is fatal — forwards that
error. -/
theorem c6_pr_lookup (w : World) (b : String) :
    (prCandidates w.owner b = [b, stripReleaseLit b, w.owner ++ ":" ++ b]) ∧
    (∀ p ps d, w.pullsList b = Except.ok (p :: ps) →
      w.pullsGet p.num = Except.ok d →
      getPRInfoR w b = Except.ok (mkEnhancedBody p d, p.url)) ∧
    (prNoResult w b → ∀ p ps d,
      w.pullsList (stripReleaseLit b) = Except.ok (p :: ps) →
      w.pullsGet p.num = Except.ok d →
      getPRInfoR w b = Except.ok (mkEnhancedBody p d, p.url)) ∧
    (prNoResult w b → prNoResult w (stripReleaseLit b) → ∀ p ps d,
      w.pullsList (w.owner ++ ":" ++ b) = Except.ok (p :: ps) →
      w.pullsGet p.num = Except.ok d →
      getPRInfoR w b = Except.ok (mkEnhancedBody p d, p.url)) ∧
    ((∀ c ∈ prCandidates w.owner b, prNoResult w c) →
      getPRInfoR w b = Except.error (prNotFoundMsg b)) ∧
    (∀ vs pn rp,
      (∀ c ∈ prCandidates w.owner ("release/" ++ vs), prNoResult w c) →
      (createGitHubReleaseR w vs pn rp).2 =
        Except.error (prNotFoundMsg ("release/" ++ vs))) := by
  have hfirst : ∀ (cand : String) (cs : List String) (p : PRItem)
      (ps : List PRItem) (d : PRDetail),
      w.pullsList cand = Except.ok (p :: ps) →
      w.pullsGet p.num = Except.ok d →
      resolvePRList w (cand :: cs) = some (mkEnhancedBody p d, p.url) := by
    intro cand cs p ps d hl hg
    simp [resolvePRList, hl, hg]
  have hskip : ∀ (cand : String) (cs : List String), prNoResult w cand →
      resolvePRList w (cand :: cs) = resolvePRList w cs := by
    intro cand cs hno
    cases hl : w.pullsList cand with
    | error e => simp [resolvePRList, hl]
    | ok l =>
      cases l with
      | nil => simp [resolvePRList, hl]
      | cons p ps => exact absurd hl (hno p ps)
  refine ⟨rfl, ?_, ?_, ?_, ?_, ?_⟩
  · intro p ps d hl hg
    simp [getPRInfoR, prCandidates, hfirst _ _ p ps d hl hg]
  · intro h1 p ps d hl hg
    simp [getPRInfoR, prCandidates, hskip _ _ h1, hfirst _ _ p ps d hl hg]
  · intro h1 h2 p ps d hl hg
    simp [getPRInfoR, prCandidates, hskip _ _ h1, hskip _ _ h2,
      hfirst _ _ p ps d hl hg]
  · intro h
    simp [getPRInfoR, resolvePRList_none _ h]
  · intro vs pn rp h
    have hres : getPRInfoR w ("release/" ++ vs) =
        Except.error (prNotFoundMsg ("release/" ++ vs)) := by
      simp [getPRInfoR, resolvePRList_none _ h]
    simp [createGitHubReleaseR, bindR_snd, liftE, hres]

theorem c6_pr_lookup_witness :
    getPRInfoR okWorld "release/1.2.3" =
      Except.ok (mkEnhancedBody okPR okDet, okPR.url) :=
  (c6_pr_lookup okWorld "release/1.2.3").2.1 okPR [] okDet rfl rfl

/-! ## C2 — order of effects in a successful release run

First, lemmas showing which steps can never emit a branch-deletion
event. -/

theorem no_branchDel_updatePackageJson (w : World) (v b bb : String) :
    Ev.branchDel bb ∉ (updatePackageJsonR w v b).1 := by
  intro h
  unfold updatePackageJsonR at h
  rcases mem_bindR h with h | ⟨_, _, h⟩
  · simp [liftE] at h
  rcases mem_bindR h with h | ⟨_, _, h⟩
  · simp [liftE] at h
  rcases mem_bindR h with h | ⟨_, _, h⟩
  · simp [liftE] at h
  · simp [attemptEv] at h

theorem no_branchDel_updateVersionFiles (w : World) (bb : String) :
    Ev.branchDel bb ∉ (updateVersionFilesR w).1 := by
  intro h
  unfold updateVersionFilesR at h
  rcases mem_bindR h with h | ⟨v, _, h⟩
  · simp [liftOpt] at h
  · exact no_branchDel_updatePackageJson w v w.branches.current bb h

theorem no_branchDel_chlCommitBlock (w : World) (v bb : String) :
    Ev.branchDel bb ∉ (chlCommitBlock w v).1 := by
  intro h
  unfold chlCommitBlock at h
  cases hg : w.gitDirExists with
  | false => simp [hg, okR] at h
  | true =>
    simp only [hg, if_true, catchR] at h
    rcases mem_bindR h with h | ⟨_, _, h⟩
    · simp [attemptEv] at h
    rcases mem_bindR h with h | ⟨_, _, h⟩
    · simp [attemptEv] at h
    rcases mem_bindR h with h | ⟨_, _, h⟩
    · simp [attemptEv] at h
    · simp [attemptEv] at h

theorem no_branchDel_changelogStep (w : World) (v b bb : String) :
    Ev.branchDel bb ∉ (changelogStepR w v b).1 := by
  intro h
  unfold changelogStepR changelogInner at h
  simp only [catchR] at h
  rcases mem_bindR h with h | ⟨_, _, h⟩
  · simp [liftE] at h
  rcases mem_bindR h with h | ⟨_, _, h⟩
  · simp [attemptEv] at h
  · exact no_branchDel_chlCommitBlock w v bb h

theorem no_branchDel_installDeps (w : World) (bb : String) :
    Ev.branchDel bb ∉ (installDepsR w).1 := by
  intro h
  unfold installDepsR at h
  split at h <;> simp [attemptEv] at h
  split at h <;> simp [attemptEv] at h

theorem no_branchDel_runBuild (w : World) (bb : String) :
    Ev.branchDel bb ∉ (runBuildR w).1 := by
  intro h
  unfold runBuildR at h
  split at h <;> simp [attemptEv] at h

theorem no_branchDel_updateMtaYaml (w : World) (v b bb : String) :
    Ev.branchDel bb ∉ (updateMtaYamlR w v b).1 := by
  intro h
  unfold updateMtaYamlR at h
  simp only [catchR] at h
  rcases mem_bindR h with h | ⟨_, _, h⟩
  · simp [liftE] at h
  rcases mem_bindR h with h | ⟨_, _, h⟩
  · simp [liftE] at h
  · simp [attemptEv] at h

theorem no_branchDel_buildProject (w : World) (v n bb : String) :
    Ev.branchDel bb ∉ (buildProjectR w v n).1 := by
  intro h
  unfold buildProjectR at h
  rcases mem_bindR h with h | ⟨_, _, h⟩
  · exact no_branchDel_installDeps w bb h
  rcases mem_bindR h with h | ⟨_, _, h⟩
  · exact no_branchDel_runBuild w bb h
  split at h
  · rcases hD : w.mtaArchivesDir with _ | files <;> simp only [hD] at h
    · simp [errR] at h
    · rcases hF : files.filter (fun f => strEndsWith f ".mtar") with _ | ⟨f, fs⟩ <;>
        simp only [hF] at h
      · simp [errR] at h
      · rcases mem_bindR h with h | ⟨_, _, h⟩
        · simp [attemptEv] at h
        rcases mem_bindR h with h | ⟨_, _, h⟩
        · exact no_branchDel_updateMtaYaml w v w.branches.current bb h
        · simp [okR] at h
  · split at h
    · rcases mem_bindR h with h | ⟨_, _, h⟩
      · simp [attemptEv] at h
      · simp [okR] at h
    · simp [errR] at h

theorem no_branchDel_createGitHubRelease (w : World) (v n rp bb : String) :
    Ev.branchDel bb ∉ (createGitHubReleaseR w v n rp).1 := by
  intro h
  unfold createGitHubReleaseR at h
  rcases mem_bindR h with h | ⟨_, _, h⟩
  · simp [liftE] at h
  rcases mem_bindR h with h | ⟨_, _, h⟩
  · simp [attemptEv] at h
  split at h
  · simp [attemptEv] at h
  · simp [okR] at h

/-- C2: in every successful release run the current branch is merged
into the development branch, then into the main branch; the main-merge
commit identifier is the run's return value; the tag is created at
that identifier right after the merges; and the only branch deletion
in the whole trace is the deletion of the release branch, emitted
last, after the tag-creation, build and release-publication steps have
all succeeded. -/
theorem c2_release_sequence (w : World) (s : String)
    (h : (handleR w).2 = Except.ok s) :
    ∃ v n rp,
      extractVersionFromBranch w.branches.current w.pfxs.release = some v ∧
      projectNameOf w = Except.ok n ∧
      (∃ d, w.mergeRes w.branches.current w.branches.development =
        Except.ok d) ∧
      w.mergeRes w.branches.current w.branches.main = Except.ok s ∧
      w.createTagRes (getTagName w.branches.current w.pfxs.release w.pfxs.tag)
        s = Except.ok () ∧
      (buildProjectR w v n).2 = Except.ok rp ∧
      (createGitHubReleaseR w v n rp).2 = Except.ok () ∧
      w.deleteRes w.branches.current = Except.ok () ∧
      (handleR w).1 =
        (updateVersionFilesR w).1 ++
        (changelogStepR w v w.branches.current).1 ++
        [Ev.merge w.branches.current w.branches.development,
         Ev.merge w.branches.current w.branches.main,
         Ev.tagCreate
           (getTagName w.branches.current w.pfxs.release w.pfxs.tag) s] ++
        (buildProjectR w v n).1 ++ (createGitHubReleaseR w v n rp).1 ++
        [Ev.branchDel w.branches.current] ∧
      (∀ b, Ev.branchDel b ∉ (updateVersionFilesR w).1 ∧
            Ev.branchDel b ∉ (changelogStepR w v w.branches.current).1 ∧
            Ev.branchDel b ∉ (buildProjectR w v n).1 ∧
            Ev.branchDel b ∉ (createGitHubReleaseR w v n rp).1) := by
  unfold handleR at h
  obtain ⟨v, hv, h, _⟩ := bindR_ok_elim h
  rw [liftOpt_snd_ok] at hv
  obtain ⟨n, hn, h, _⟩ := bindR_ok_elim h
  obtain ⟨u1, hu, h, _⟩ := bindR_ok_elim h
  cases u1
  obtain ⟨u2, _, h, _⟩ := bindR_ok_elim h
  cases u2
  obtain ⟨sm, hm, h, _⟩ := bindR_ok_elim h
  obtain ⟨u3, ht, h, _⟩ := bindR_ok_elim h
  cases u3
  obtain ⟨rp, hb, h, _⟩ := bindR_ok_elim h
  obtain ⟨u4, hr, h, _⟩ := bindR_ok_elim h
  cases u4
  obtain ⟨u5, hd, h, _⟩ := bindR_ok_elim h
  cases u5
  simp only [okR] at h
  cases h
  -- the merge sub-step yields the development and main results
  obtain ⟨d, hdev, hmain, _⟩ := bindR_ok_elim (show
    (bindR (attemptEv (Ev.merge w.branches.current w.branches.development)
        (w.mergeRes w.branches.current w.branches.development))
      (fun _ => attemptEv (Ev.merge w.branches.current w.branches.main)
        (w.mergeRes w.branches.current w.branches.main))).2 =
      Except.ok s from hm)
  have hn2 : projectNameOf w = Except.ok n := hn
  have hdev2 : w.mergeRes w.branches.current w.branches.development =
    Except.ok d := hdev
  have hmain2 : w.mergeRes w.branches.current w.branches.main =
    Except.ok s := hmain
  have ht2 : w.createTagRes
      (getTagName w.branches.current w.pfxs.release w.pfxs.tag) s =
    Except.ok () := ht
  have hd2 : w.deleteRes w.branches.current = Except.ok () := hd
  have hu2 : (updateVersionFilesR w).2 = Except.ok () := hu
  have hcl : (changelogStepR w v w.branches.current).2 = Except.ok () := rfl
  refine ⟨v, n, rp, hv, hn2, ⟨d, hdev2⟩, hmain2, ht2, hb, hr, hd2, ?_, ?_⟩
  · -- full trace computation from the success facts
    simp only [handleR, bindR, liftOpt, liftE, attemptEv, mergeR, createTagR,
      okR, hv, hn2, hu2, hcl, hdev2, hmain2, ht2, hb, hr, hd2]
    simp [List.append_assoc]
  · intro b
    exact ⟨no_branchDel_updateVersionFiles w b,
      no_branchDel_changelogStep w v w.branches.current b,
      no_branchDel_buildProject w v n b,
      no_branchDel_createGitHubRelease w v n rp b⟩

theorem c2_release_sequence_witness :
    (handleR okWorld).2 = Except.ok "sha-main" ∧
    okWorld.mergeRes okWorld.branches.current okWorld.branches.main =
      Except.ok "sha-main" := by
  refine ⟨rfl, ?_⟩
  obtain ⟨v, n, rp, _, _, _, hmain, _⟩ :=
    c2_release_sequence okWorld "sha-main" rfl
  exact hmain

/-! ## C5 — archive-build classification and artifact renaming -/

/-- A successful run implies the build step succeeded (shared helper,
used to turn a build failure into an aborted run). -/
theorem handle_ok_build {w : World} {s : String}
    (h : (handleR w).2 = Except.ok s) :
    ∃ v n rp, (buildProjectR w v n).2 = Except.ok rp := by
  unfold handleR at h
  obtain ⟨v, _, h, _⟩ := bindR_ok_elim h
  obtain ⟨n, _, h, _⟩ := bindR_ok_elim h
  obtain ⟨u1, _, h, _⟩ := bindR_ok_elim h
  obtain ⟨u2, _, h, _⟩ := bindR_ok_elim h
  obtain ⟨sm, _, h, _⟩ := bindR_ok_elim h
  obtain ⟨u3, _, h, _⟩ := bindR_ok_elim h
  obtain ⟨rp, hb, h, _⟩ := bindR_ok_elim h
  exact ⟨v, n, rp, hb⟩

/-- C5: in an archive-build project (descriptor file present), with
install and build succeeding, a missing archive directory or an empty
archive listing fails the build step with the corresponding build
error — and then the whole run can never return successfully; with at
least one `.mtar` file, the first one is renamed to
`{project}-v{version}.mtar`, a failing rename aborts before any
descriptor patch, and a successful rename is followed (strictly after,
in the trace) by the descriptor-patch events. -/
theorem c5_build_archive (w : World) (v n : String)
    (hM : w.mtaYamlExists = true)
    (hI : (installDepsR w).2 = Except.ok ())
    (hB : (runBuildR w).2 = Except.ok ()) :
    (w.mtaArchivesDir = none →
      buildProjectR w v n =
        ((installDepsR w).1 ++ (runBuildR w).1, Except.error mtaNoDirMsg)) ∧
    (∀ files, w.mtaArchivesDir = some files →
      files.filter (fun f => strEndsWith f ".mtar") = [] →
      buildProjectR w v n =
        ((installDepsR w).1 ++ (runBuildR w).1, Except.error mtaNoFileMsg)) ∧
    (∀ files f fs, w.mtaArchivesDir = some files →
      files.filter (fun f => strEndsWith f ".mtar") = f :: fs →
      (∀ e, w.renameRes (mtaOrigPath w f) (mtaVersionedPath w n v) =
          Except.error e →
        buildProjectR w v n =
          ((installDepsR w).1 ++ (runBuildR w).1 ++
           [Ev.renameFile (mtaOrigPath w f) (mtaVersionedPath w n v)],
           Except.error e)) ∧
      (w.renameRes (mtaOrigPath w f) (mtaVersionedPath w n v) =
          Except.ok () →
        buildProjectR w v n =
          ((installDepsR w).1 ++ (runBuildR w).1 ++
           [Ev.renameFile (mtaOrigPath w f) (mtaVersionedPath w n v)] ++
           (updateMtaYamlR w v w.branches.current).1,
           Except.ok (mtaVersionedPath w n v)))) ∧
    ((w.mtaArchivesDir = none ∨
      ∃ files, w.mtaArchivesDir = some files ∧
        files.filter (fun f => strEndsWith f ".mtar") = []) →
      ∀ s, (handleR w).2 ≠ Except.ok s) := by
  have hbuildErr : ∀ (cond : Prop), (w.mtaArchivesDir = none ∨
      ∃ files, w.mtaArchivesDir = some files ∧
        files.filter (fun f => strEndsWith f ".mtar") = []) →
      ∀ v2 n2, ∃ e, (buildProjectR w v2 n2).2 = Except.error e := by
    intro _ hcond v2 n2
    rcases hI2 : (installDepsR w).2 with eI | uI
    · exact ⟨eI, by simp [buildProjectR, bindR_snd, hI2]⟩
    rcases hB2 : (runBuildR w).2 with eB | uB
    · exact ⟨eB, by simp [buildProjectR, bindR_snd, hI2, hB2]⟩
    rcases hcond with hD | ⟨files, hD, hF⟩
    · exact ⟨mtaNoDirMsg, by
        simp [buildProjectR, bindR_snd, hI2, hB2, hM, hD, errR]⟩
    · exact ⟨mtaNoFileMsg, by
        simp [buildProjectR, bindR_snd, hI2, hB2, hM, hD, hF, errR]⟩
  refine ⟨?_, ?_, ?_, ?_⟩
  · intro hD
    simp [buildProjectR, bindR, hI, hB, hM, hD, errR]
  · intro files hD hF
    simp [buildProjectR, bindR, hI, hB, hM, hD, hF, errR]
  · intro files f fs hD hF
    constructor
    · intro e hRen
      simp [buildProjectR, bindR, attemptEv, hI, hB, hM, hD, hF, hRen,
        List.append_assoc]
    · intro hRen
      simp [buildProjectR, bindR, attemptEv, hI, hB, hM, hD, hF, hRen,
        updateMtaYamlR_snd, okR, List.append_assoc]
  · intro hcond s hok
    obtain ⟨v2, n2, rp, hb⟩ := handle_ok_build hok
    obtain ⟨e, he⟩ := hbuildErr True hcond v2 n2
    rw [hb] at he
    cases he

/-! ## C3 — the changelog splice

Helper lemmas about line splitting and joining, and the
characterisation of the header-end search. -/

theorem splitNl_ne_nil (s : List Char) : splitNl s ≠ [] := by
  cases s with
  | nil => simp [splitNl]
  | cons c rest =>
    by_cases hc : c = '\n'
    · subst hc; simp [splitNl]
    · rcases hsp : splitNl rest with _ | ⟨l, ls⟩ <;>
        simp [splitNl, hc, hsp]

theorem joinNl_cons_of_ne_nil (l : List Char) {ls : List (List Char)}
    (h : ls ≠ []) : joinNl (l :: ls) = l ++ '\n' :: joinNl ls := by
  cases ls with
  | nil => exact absurd rfl h
  | cons l2 ls2 => rfl

theorem joinNl_cons_cons (c : Char) (l : List Char) (ls : List (List Char)) :
    joinNl ((c :: l) :: ls) = c :: joinNl (l :: ls) := by
  cases ls <;> simp [joinNl]

theorem joinNl_splitNl (s : List Char) : joinNl (splitNl s) = s := by
  induction s with
  | nil => rfl
  | cons c rest ih =>
    by_cases hc : c = '\n'
    · subst hc
      rcases hsp : splitNl rest with _ | ⟨l, ls⟩
      · exact absurd hsp (splitNl_ne_nil rest)
      · rw [show splitNl ('\n' :: rest) = [] :: splitNl rest from rfl, hsp]
        rw [joinNl_cons_of_ne_nil [] (by simp)]
        rw [← hsp, ih]
        rfl
    · rcases hsp : splitNl rest with _ | ⟨l, ls⟩
      · exact absurd hsp (splitNl_ne_nil rest)
      · rw [show splitNl (c :: rest) =
          match splitNl rest with
          | [] => [[c]]
          | l :: ls => (c :: l) :: ls from by
            cases rest <;> simp_all [splitNl], hsp]
        rw [joinNl_cons_cons, ← hsp, ih]

theorem joinNl_take_drop :
    ∀ (ls : List (List Char)) (j : Nat), 0 < j → j < ls.length →
      joinNl ls = joinNl (ls.take j) ++ '\n' :: joinNl (ls.drop j) := by
  intro ls
  induction ls with
  | nil => intro j _ hj; simp at hj
  | cons l rest ih =>
    intro j h0 hj
    cases j with
    | zero => simp at h0
    | succ j2 =>
      cases j2 with
      | zero =>
        have hrest : rest ≠ [] := by
          simp at hj
          intro hcon
          rw [hcon] at hj
          simp at hj
        simp only [List.take_succ_cons, List.take_zero, List.drop_succ_cons,
          List.drop_zero]
        rw [joinNl_cons_of_ne_nil l hrest]
        rfl
      | succ j3 =>
        have hrest : rest ≠ [] := by
          intro hcon
          rw [hcon] at hj
          simp at hj
        have hjr : j3 + 1 < rest.length := by simpa using hj
        have htk : rest.take (j3 + 1) ≠ [] := by
          intro hcon
          rw [List.take_eq_nil_iff] at hcon
          rcases hcon with h | h
          · cases h
          · exact hrest h
        rw [joinNl_cons_of_ne_nil l hrest, List.take_succ_cons,
          List.drop_succ_cons, joinNl_cons_of_ne_nil l htk,
          ih (j3 + 1) (by omega) hjr]
        simp

theorem findIdxFrom_spec :
    ∀ (ls : List (List Char)) (st k : Nat) (l : List Char),
      ls.get? k = some l → 0 < st + k → lineQualifies l = true →
      (∀ k2 l2, k2 < k → ls.get? k2 = some l2 →
        st + k2 = 0 ∨ lineQualifies l2 = false) →
      findIdxFrom st ls = some (st + k) := by
  intro ls
  induction ls with
  | nil =>
    intro st k l hget
    simp at hget
  | cons l0 rest ih =>
    intro st k l hget hpos hq hmin
    cases k with
    | zero =>
      simp at hget
      subst hget
      have hst : 0 < st := by simpa using hpos
      simp [findIdxFrom, hq, hst]
    | succ k2 =>
      have hget2 : rest.get? k2 = some l := by simpa using hget
      have hmin2 : ∀ k3 l3, k3 < k2 → rest.get? k3 = some l3 →
          (st + 1) + k3 = 0 ∨ lineQualifies l3 = false := by
        intro k3 l3 hk3 hg3
        rcases hmin (k3 + 1) l3 (by omega) (by simpa using hg3) with h | h
        · omega
        · exact Or.inr h
      have hrec := ih (st + 1) k2 l hget2 (by omega) hq hmin2
      have hhead : ¬(st > 0 ∧ lineQualifies l0 = true) := by
        rintro ⟨hst, hq0⟩
        rcases hmin 0 l0 (Nat.succ_pos k2) (by simp) with h | h
        · omega
        · rw [hq0] at h; cases h
      have heq : st + 1 + k2 = st + (k2 + 1) := by omega
      rw [heq] at hrec
      by_cases hst : st > 0
      · have hq0 : lineQualifies l0 = false := by
          rcases hmin 0 l0 (Nat.succ_pos k2) (by simp) with h | h
          · omega
          · exact h
        simpa [findIdxFrom, hq0] using hrec
      · have hst0 : st = 0 := by omega
        subst hst0
        simpa [findIdxFrom] using hrec

/-- C3: when the existing text contains the changelog heading and some
line after line 0 is non-blank and does not start with `#`, the splice
cuts at the first such line `j`: the result is the first `j` lines,
a blank separator, the new entry, and then — byte for byte, as a
suffix — the prior entries, which are exactly what followed the header
block in the original text. -/
theorem c3_changelog_splice (existing entry : List Char) (j : Nat)
    (l : List Char)
    (hC : containsChlHeading existing = true)
    (hj : (splitNl existing).get? j = some l)
    (h0 : 0 < j)
    (hq : lineQualifies l = true)
    (hmin : ∀ i l2, i < j → (splitNl existing).get? i = some l2 →
      i = 0 ∨ lineQualifies l2 = false) :
    spliceChangelog existing entry =
      joinNl ((splitNl existing).take j) ++
        '\n' :: '\n' :: (entry ++ joinNl ((splitNl existing).drop j)) ∧
    existing =
      joinNl ((splitNl existing).take j) ++
        '\n' :: joinNl ((splitNl existing).drop j) ∧
    List.IsSuffix (joinNl ((splitNl existing).drop j))
      (spliceChangelog existing entry) := by
  have hfind : findHeaderEnd (splitNl existing) = some j := by
    have := findIdxFrom_spec (splitNl existing) 0 j l hj (by omega) hq
      (by
        intro k2 l2 hk2 hg2
        rcases hmin k2 l2 hk2 hg2 with h | h
        · exact Or.inl (by omega)
        · exact Or.inr h)
    simpa [findHeaderEnd] using this
  have hsplice : spliceChangelog existing entry =
      joinNl ((splitNl existing).take j) ++
        '\n' :: '\n' :: (entry ++ joinNl ((splitNl existing).drop j)) := by
    simp only [spliceChangelog, hC, if_true, hfind]
    simp [h0, List.append_assoc]
  have hjlen : j < (splitNl existing).length := by
    rcases List.get?_eq_some.mp hj with ⟨hlt, _⟩
    exact hlt
  refine ⟨hsplice, ?_, ?_⟩
  · conv_lhs => rw [← joinNl_splitNl existing]
    exact joinNl_take_drop (splitNl existing) j h0 hjlen
  · rw [hsplice]
    exact ⟨joinNl ((splitNl existing).take j) ++ '\n' :: '\n' :: entry,
      by simp [List.append_assoc]⟩

theorem c3_changelog_splice_witness :
    spliceChangelog ("# Changelog\n\ndesc\n\n# V1\nold".toList) ("E".toList) =
      joinNl ((splitNl ("# Changelog\n\ndesc\n\n# V1\nold".toList)).take 2) ++
        '\n' :: '\n' :: ("E".toList ++
          joinNl ((splitNl ("# Changelog\n\ndesc\n\n# V1\nold".toList)).drop 2)) := by
  refine (c3_changelog_splice ("# Changelog\n\ndesc\n\n# V1\nold".toList)
    ("E".toList) 2 ("desc".toList) (by decide) (by decide) (by decide)
    (by decide) ?_).1
  intro i l2 hi hget
  have hor : i = 0 ∨ i = 1 := by omega
  rcases hor with h | h
  · exact Or.inl h
  · subst h
    right
    have he : (splitNl ("# Changelog\n\ndesc\n\n# V1\nold".toList)).get? 1 =
        some [] := by decide
    rw [he] at hget
    cases hget
    decide

/-! ## C8 — descriptor version patch (amended general theorem)

When no whitespace run after a `version:` key crosses a line break
(every matching line has a non-space character after the key, and the
text uses `\n` line breaks only), the global multiline replace acts
line by line — on **every** matching line. -/

theorem scan_consume0_eq_skipWs (v s : List Char) :
    scanGo v (.consume 0) s = scanGo v .skipWs s := by
  cases s <;> rfl

theorem isLineTermJs_nl : isLineTermJs '\n' = true := by decide

theorem nextScanSt_of_not_term {c : Char} (h : isLineTermJs c = false) :
    nextScanSt c = ScanSt.mid := by
  simp [nextScanSt, h]

theorem scan_mid_last (v : List Char) :
    ∀ t : List Char, (∀ c ∈ t, isLineTermJs c = false) →
      scanGo v .mid t = t := by
  intro t
  induction t with
  | nil => intro _; rfl
  | cons c t2 ih =>
    intro h
    have hc := h c (by simp)
    simp [scanGo, nextScanSt_of_not_term hc,
      ih (fun d hd => h d (by simp [hd]))]

theorem scan_mid_line (v : List Char) :
    ∀ (t rest : List Char), (∀ c ∈ t, isLineTermJs c = false) →
      scanGo v .mid (t ++ '\n' :: rest) =
        t ++ '\n' :: scanGo v .lineStart rest := by
  intro t
  induction t with
  | nil =>
    intro rest _
    simp [scanGo, nextScanSt, isLineTermJs_nl]
  | cons c t2 ih =>
    intro rest h
    have hc := h c (by simp)
    simp [scanGo, nextScanSt_of_not_term hc,
      ih rest (fun d hd => h d (by simp [hd]))]

theorem scan_skipRest_last (v : List Char) :
    ∀ t : List Char, (∀ c ∈ t, isLineTermJs c = false) →
      scanGo v .skipRest t = [] := by
  intro t
  induction t with
  | nil => intro _; rfl
  | cons c t2 ih =>
    intro h
    have hc := h c (by simp)
    simp [scanGo, hc, ih (fun d hd => h d (by simp [hd]))]

theorem scan_skipRest_line (v : List Char) :
    ∀ (t rest : List Char), (∀ c ∈ t, isLineTermJs c = false) →
      scanGo v .skipRest (t ++ '\n' :: rest) =
        '\n' :: scanGo v .lineStart rest := by
  intro t
  induction t with
  | nil =>
    intro rest _
    simp [scanGo, isLineTermJs_nl]
  | cons c t2 ih =>
    intro rest h
    have hc := h c (by simp)
    simp [scanGo, hc, ih rest (fun d hd => h d (by simp [hd]))]

theorem scan_skipWs_last (v : List Char) :
    ∀ t : List Char, (∀ c ∈ t, isLineTermJs c = false) →
      scanGo v .skipWs t = [] := by
  intro t
  induction t with
  | nil => intro _; rfl
  | cons c t2 ih =>
    intro h
    by_cases hw : isJsSpace c = true
    · simp [scanGo, hw, ih (fun d hd => h d (by simp [hd]))]
    · simp only [Bool.not_eq_true] at hw
      simp [scanGo, hw,
        scan_skipRest_last v t2 (fun d hd => h d (by simp [hd]))]

theorem scan_skipWs_line (v : List Char) :
    ∀ (t rest : List Char), (∀ c ∈ t, isLineTermJs c = false) →
      (∃ x ∈ t, isJsSpace x = false) →
      scanGo v .skipWs (t ++ '\n' :: rest) =
        '\n' :: scanGo v .lineStart rest := by
  intro t
  induction t with
  | nil =>
    intro rest _ hx
    simp at hx
  | cons c t2 ih =>
    intro rest h hx
    by_cases hw : isJsSpace c = true
    · have hx2 : ∃ x ∈ t2, isJsSpace x = false := by
        rcases hx with ⟨x, hmem, hxw⟩
        rcases List.mem_cons.mp hmem with rfl | hmem2
        · rw [hw] at hxw; cases hxw
        · exact ⟨x, hmem2, hxw⟩
      simp [scanGo, hw, ih rest (fun d hd => h d (by simp [hd])) hx2]
    · simp only [Bool.not_eq_true] at hw
      simp [scanGo, hw,
        scan_skipRest_line v t2 rest (fun d hd => h d (by simp [hd]))]

theorem isPrefixOf_exists :
    ∀ (k l : List Char), k.isPrefixOf l = true → ∃ t, l = k ++ t := by
  intro k
  induction k with
  | nil => intro l _; exact ⟨l, rfl⟩
  | cons a k2 ih =>
    intro l h
    cases l with
    | nil => simp [List.isPrefixOf] at h
    | cons b l2 =>
      simp only [List.isPrefixOf, Bool.and_eq_true, beq_iff_eq] at h
      obtain ⟨rfl, h2⟩ := h
      obtain ⟨t, rfl⟩ := ih l2 h2
      exact ⟨t, rfl⟩

theorem isPrefixOf_append_nl :
    ∀ (k l rest : List Char), (∀ c ∈ k, ¬c = '\n') →
      k.isPrefixOf l = false →
      k.isPrefixOf (l ++ '\n' :: rest) = false := by
  intro k
  induction k with
  | nil => intro l rest _ h; simp [List.isPrefixOf] at h
  | cons a k2 ih =>
    intro l rest hnl h
    cases l with
    | nil =>
      have ha := hnl a (by simp)
      simp [List.isPrefixOf, ha]
    | cons b l2 =>
      by_cases hab : a = b
      · subst hab
        have h2 : k2.isPrefixOf l2 = false := by
          simpa [List.isPrefixOf] using h
        have h3 := ih l2 rest (fun c hc => hnl c (by simp [hc])) h2
        simp [List.isPrefixOf, h3]
      · simp [List.isPrefixOf, hab]

theorem scan_key_step (v t : List Char) :
    scanGo v .lineStart (verKey ++ t) =
      ('v' :: 'e' :: 'r' :: 's' :: 'i' :: 'o' :: 'n' :: ':' :: ' ' :: v) ++
        scanGo v (.consume 0) t := by
  have hcond : verKey.isPrefixOf
      ('v' :: 'e' :: 'r' :: 's' :: 'i' :: 'o' :: 'n' :: ':' :: t) = true := by
    simp [verKey, List.isPrefixOf]
  show scanGo v .lineStart
      ('v' :: 'e' :: 'r' :: 's' :: 'i' :: 'o' :: 'n' :: ':' :: t) = _
  simp [scanGo, hcond]

theorem scan_line (v l rest : List Char)
    (hLT : ∀ c ∈ l, isLineTermJs c = false)
    (hws : verKey.isPrefixOf l = true → ∃ x ∈ l.drop 8, isJsSpace x = false) :
    scanGo v .lineStart (l ++ '\n' :: rest) =
      mtaLineReplace v l ++ '\n' :: scanGo v .lineStart rest := by
  by_cases hm : verKey.isPrefixOf l = true
  · obtain ⟨t, rfl⟩ := isPrefixOf_exists verKey l hm
    have hdrop : (verKey ++ t).drop 8 = t := by simp [verKey]
    have hws2 : ∃ x ∈ t, isJsSpace x = false := by
      rw [hdrop] at hws
      exact hws hm
    have hLT2 : ∀ c ∈ t, isLineTermJs c = false :=
      fun c hc => hLT c (by simp [hc])
    rw [show (verKey ++ t) ++ '\n' :: rest = verKey ++ (t ++ '\n' :: rest)
        from by simp]
    rw [scan_key_step, scan_consume0_eq_skipWs,
      scan_skipWs_line v t rest hLT2 hws2]
    rw [show mtaLineReplace v (verKey ++ t) =
        'v' :: 'e' :: 'r' :: 's' :: 'i' :: 'o' :: 'n' :: ':' :: ' ' :: v
        from by simp [mtaLineReplace, hm]]
  · have hm2 : verKey.isPrefixOf l = false := by
      cases hpp : verKey.isPrefixOf l
      · rfl
      · exact absurd hpp hm
    cases l with
    | nil =>
      show scanGo v .lineStart ('\n' :: rest) = _
      have hcond : verKey.isPrefixOf ('\n' :: rest) = false := by
        simp [verKey, List.isPrefixOf]
      simp [scanGo, hcond, nextScanSt, isLineTermJs_nl, mtaLineReplace, hm2]
    | cons a l2 =>
      have hcond : verKey.isPrefixOf (a :: (l2 ++ '\n' :: rest)) = false := by
        have := isPrefixOf_append_nl verKey (a :: l2) rest (by decide) hm2
        simpa using this
      have ha := hLT a (by simp)
      show scanGo v .lineStart (a :: (l2 ++ '\n' :: rest)) = _
      rw [show scanGo v .lineStart (a :: (l2 ++ '\n' :: rest)) =
          a :: scanGo v (nextScanSt a) (l2 ++ '\n' :: rest) from by
        simp [scanGo, hcond]]
      rw [nextScanSt_of_not_term ha,
        scan_mid_line v l2 rest (fun d hd => hLT d (by simp [hd]))]
      simp [mtaLineReplace, hm2]

theorem scan_last (v l : List Char)
    (hLT : ∀ c ∈ l, isLineTermJs c = false) :
    scanGo v .lineStart l = mtaLineReplace v l := by
  by_cases hm : verKey.isPrefixOf l = true
  · obtain ⟨t, rfl⟩ := isPrefixOf_exists verKey l hm
    have hLT2 : ∀ c ∈ t, isLineTermJs c = false :=
      fun c hc => hLT c (by simp [hc])
    rw [scan_key_step, scan_consume0_eq_skipWs, scan_skipWs_last v t hLT2]
    rw [show mtaLineReplace v (verKey ++ t) =
        'v' :: 'e' :: 'r' :: 's' :: 'i' :: 'o' :: 'n' :: ':' :: ' ' :: v
        from by simp [mtaLineReplace, hm]]
    simp
  · have hm2 : verKey.isPrefixOf l = false := by
      cases hpp : verKey.isPrefixOf l
      · rfl
      · exact absurd hpp hm
    cases l with
    | nil => simp [scanGo, mtaLineReplace, hm2]
    | cons a l2 =>
      have ha := hLT a (by simp)
      rw [show scanGo v .lineStart (a :: l2) =
          a :: scanGo v (nextScanSt a) l2 from by
        simp [scanGo, hm2]]
      rw [nextScanSt_of_not_term ha,
        scan_mid_last v l2 (fun d hd => hLT d (by simp [hd]))]
      simp [mtaLineReplace, hm2]

theorem mem_splitNl :
    ∀ (s l : List Char) (c : Char), l ∈ splitNl s → c ∈ l → c ∈ s := by
  intro s
  induction s with
  | nil =>
    intro l c hl hc
    simp [splitNl] at hl
    subst hl
    cases hc
  | cons a rest ih =>
    intro l c hl hc
    by_cases ha : a = '\n'
    · subst ha
      rw [show splitNl ('\n' :: rest) = [] :: splitNl rest from rfl] at hl
      rcases List.mem_cons.mp hl with rfl | hl2
      · cases hc
      · exact List.mem_cons_of_mem _ (ih l c hl2 hc)
    · rcases hsp : splitNl rest with _ | ⟨l0, ls0⟩
      · exact absurd hsp (splitNl_ne_nil rest)
      · rw [show splitNl (a :: rest) =
          match splitNl rest with
          | [] => [[a]]
          | l :: ls => (a :: l) :: ls from by
            cases rest <;> simp_all [splitNl], hsp] at hl
        rcases List.mem_cons.mp hl with rfl | hl2
        · rcases List.mem_cons.mp hc with rfl | hc2
          · simp
          · exact List.mem_cons_of_mem _
              (ih l0 c (by rw [hsp]; simp) hc2)
        · exact List.mem_cons_of_mem _
            (ih l c (by rw [hsp]; exact List.mem_cons_of_mem _ hl2) hc)

theorem splitNl_no_nl :
    ∀ (s : List Char), ∀ l ∈ splitNl s, '\n' ∉ l := by
  intro s
  induction s with
  | nil =>
    intro l hl
    simp [splitNl] at hl
    subst hl
    simp
  | cons a rest ih =>
    intro l hl
    by_cases ha : a = '\n'
    · subst ha
      rw [show splitNl ('\n' :: rest) = [] :: splitNl rest from rfl] at hl
      rcases List.mem_cons.mp hl with rfl | hl2
      · simp
      · exact ih l hl2
    · rcases hsp : splitNl rest with _ | ⟨l0, ls0⟩
      · exact absurd hsp (splitNl_ne_nil rest)
      · rw [show splitNl (a :: rest) =
          match splitNl rest with
          | [] => [[a]]
          | l :: ls => (a :: l) :: ls from by
            cases rest <;> simp_all [splitNl], hsp] at hl
        rcases List.mem_cons.mp hl with rfl | hl2
        · intro hmem
          rcases List.mem_cons.mp hmem with h | h
          · exact ha h.symm
          · exact ih l0 (by rw [hsp]; simp) h
        · exact ih l (by rw [hsp]; exact List.mem_cons_of_mem _ hl2)

theorem map_self_of_fixed {α : Type} (f : α → α) :
    ∀ (L : List α), (∀ l ∈ L, f l = l) → L.map f = L := by
  intro L
  induction L with
  | nil => intro _; rfl
  | cons a L2 ih =>
    intro h
    simp [h a (by simp), ih (fun l hl => h l (by simp [hl]))]

theorem scan_lines (v : List Char) :
    ∀ (L : List (List Char)), L ≠ [] →
      (∀ l ∈ L, ∀ c ∈ l, isLineTermJs c = false) →
      (∀ l ∈ L, verKey.isPrefixOf l = true →
        ∃ x ∈ l.drop 8, isJsSpace x = false) →
      scanGo v .lineStart (joinNl L) = joinNl (L.map (mtaLineReplace v)) := by
  intro L
  induction L with
  | nil => intro h; exact absurd rfl h
  | cons l L2 ih =>
    intro _ hLT hws
    cases hL2 : L2 with
    | nil =>
      subst hL2
      simp only [joinNl, List.map_cons, List.map_nil]
      exact scan_last v l (hLT l (by simp))
    | cons l2 L3 =>
      rw [← hL2]
      have hne : L2 ≠ [] := by rw [hL2]; simp
      rw [joinNl_cons_of_ne_nil l hne,
        scan_line v l (joinNl L2) (hLT l (by simp)) (hws l (by simp)),
        ih hne (fun m hm => hLT m (by simp [hm]))
          (fun m hm => hws m (by simp [hm]))]
      rw [List.map_cons,
        joinNl_cons_of_ne_nil (mtaLineReplace v l)
          (by rw [hL2]; simp)]

/-- C8 (amended): the replace is **global** — with `\n`-only line
breaks and a non-space character after every line-leading `version:`
key (so no whitespace run crosses a line break), every line starting
with `version:` is replaced by `version: <v>`, not only the first; and
content with no such line is returned entirely unchanged. -/
theorem c8_update_mta (content v : List Char)
    (hterm : ∀ c ∈ content, isLineTermJs c = true → c = '\n')
    (hlines : ∀ l ∈ splitNl content, verKey.isPrefixOf l = true →
      ∃ x ∈ l.drop 8, isJsSpace x = false) :
    updateMtaCore content v =
      joinNl ((splitNl content).map (mtaLineReplace v)) ∧
    ((∀ l ∈ splitNl content, verKey.isPrefixOf l = false) →
      updateMtaCore content v = content) := by
  have hLT : ∀ l ∈ splitNl content, ∀ c ∈ l, isLineTermJs c = false := by
    intro l hl c hc
    cases hterm2 : isLineTermJs c
    · rfl
    · have hcc := hterm c (mem_splitNl content l c hl hc) hterm2
      subst hcc
      exact absurd hc (splitNl_no_nl content l hl)
  have hmain : updateMtaCore content v =
      joinNl ((splitNl content).map (mtaLineReplace v)) := by
    have := scan_lines v (splitNl content) (splitNl_ne_nil content) hLT
      hlines
    rw [joinNl_splitNl] at this
    exact this
  refine ⟨hmain, ?_⟩
  intro hno
  rw [hmain, map_self_of_fixed (mtaLineReplace v) (splitNl content)
    (fun l hl => by simp [mtaLineReplace, hno l hl]),
    joinNl_splitNl]

theorem c8_update_mta_witness :
    updateMtaCore ("a: 1\nversion: 2\nb".toList) ("7".toList) =
      joinNl ((splitNl ("a: 1\nversion: 2\nb".toList)).map
        (mtaLineReplace ("7".toList))) :=
  (c8_update_mta ("a: 1\nversion: 2\nb".toList) ("7".toList) (by decide)
    (by decide)).1

/-! ## C1 — version extraction (amended general theorem)

For a release prefix made only of self-denoting characters the dynamic
regular expression is the literal prefix followed by the anchored
version group, and matching is exactly prefix-stripping plus the
digits-dot-digits-dot-digits check. -/

theorem atomOfChar_literal {c : Char} (h : isLiteralChar c = true) :
    atomOfChar c = some (RAtom.lit c) := by
  have hdot : ¬c = '.' := by
    intro hh
    subst hh
    simp [isLiteralChar] at h
  simp [atomOfChar, hdot, h]

theorem literalChar_ne_backslash {c : Char} (h : isLiteralChar c = true) :
    ¬c = '\\' := by
  intro hc
  subst hc
  simp [isLiteralChar] at h

theorem literalChar_ne_plus {c : Char} (h : isLiteralChar c = true) :
    ¬c = '+' := by
  intro hc
  subst hc
  simp [isLiteralChar] at h

theorem parseFuel_literal :
    ∀ (fuel : Nat) (p : List Char), p.length ≤ fuel →
      (∀ c ∈ p, isLiteralChar c = true) →
      parseFuel fuel p = some (p.map fun c => RPiece.once (RAtom.lit c)) := by
  intro fuel
  induction fuel with
  | zero =>
    intro p hlen _
    cases p with
    | nil => rfl
    | cons c rest => simp at hlen
  | succ f ih =>
    intro p hlen h
    cases p with
    | nil => rfl
    | cons c rest =>
      have hc := h c (by simp)
      have hrest : ∀ d ∈ rest, isLiteralChar d = true :=
        fun d hd => h d (by simp [hd])
      have hcb := literalChar_ne_backslash hc
      cases rest with
      | nil => simp [parseFuel, hcb, atomOfChar_literal hc]
      | cons q rest3 =>
        have hq := literalChar_ne_plus (hrest q (by simp))
        have hlen2 : (q :: rest3).length ≤ f := by
          simpa using Nat.lt_succ_iff.mp (by simpa using hlen)
        simp [parseFuel, hcb, atomOfChar_literal hc, hq,
          ih (q :: rest3) hlen2 hrest]

theorem replaceFirstSlash_nil_iff (l : List Char) :
    replaceFirstSlash l = [] ↔ l = [] := by
  cases l with
  | nil => simp [replaceFirstSlash]
  | cons c rest =>
    constructor
    · intro h
      by_cases hc : c = '/' <;> simp [replaceFirstSlash, hc] at h
    · intro h; cases h

theorem replaceFirstSlash_cons_slash (rest : List Char) :
    replaceFirstSlash ('/' :: rest) = '\\' :: '/' :: rest := by
  simp [replaceFirstSlash]

theorem replaceFirstSlash_cons_other {c : Char} (hc : ¬c = '/')
    (rest : List Char) :
    replaceFirstSlash (c :: rest) = c :: replaceFirstSlash rest := by
  simp [replaceFirstSlash, hc]

theorem parseFuel_escaped_literal :
    ∀ (fuel : Nat) (p : List Char), (replaceFirstSlash p).length ≤ fuel →
      (∀ c ∈ p, isLiteralChar c = true) →
      parseFuel fuel (replaceFirstSlash p) =
        some (p.map fun c => RPiece.once (RAtom.lit c)) := by
  intro fuel
  induction fuel with
  | zero =>
    intro p hlen _
    rcases hp : replaceFirstSlash p with _ | ⟨c, rest⟩
    · rw [(replaceFirstSlash_nil_iff p).mp hp]
      rfl
    · rw [hp] at hlen; simp at hlen
  | succ f ih =>
    intro p hlen h
    cases p with
    | nil => rfl
    | cons c rest =>
      have hc := h c (by simp)
      have hrest : ∀ d ∈ rest, isLiteralChar d = true :=
        fun d hd => h d (by simp [hd])
      by_cases hsl : c = '/'
      · subst hsl
        rw [replaceFirstSlash_cons_slash] at hlen ⊢
        cases rest with
        | nil => rfl
        | cons q rest3 =>
          have hq := literalChar_ne_plus (hrest q (by simp))
          have hlen2 : (q :: rest3).length ≤ f := by
            simp at hlen ⊢
            omega
          simp [parseFuel, atomOfEsc, hq,
            parseFuel_literal f (q :: rest3) hlen2 hrest]
      · rw [replaceFirstSlash_cons_other hsl] at hlen ⊢
        have hcb := literalChar_ne_backslash hc
        rcases hrr : replaceFirstSlash rest with _ | ⟨q, rest3⟩
        · rw [(replaceFirstSlash_nil_iff rest).mp hrr]
          simp [parseFuel, hcb, atomOfChar_literal hc]
        · have hq : ¬q = '+' := by
            cases rest with
            | nil => simp [replaceFirstSlash] at hrr
            | cons r rest4 =>
              by_cases hr : r = '/'
              · subst hr
                rw [replaceFirstSlash_cons_slash] at hrr
                cases hrr
                decide
              · rw [replaceFirstSlash_cons_other hr] at hrr
                have : q = r := by
                  have := congrArg (fun l => l.headI) hrr
                  simpa using this.symm
                subst this
                exact literalChar_ne_plus (hrest q (by simp))
          have hlen2 : (replaceFirstSlash rest).length ≤ f := by
            rw [hrr] at hlen ⊢
            simp at hlen ⊢
            omega
          have ihr := ih rest hlen2 hrest
          rw [hrr] at ihr
          simp [parseFuel, hcb, atomOfChar_literal hc, hrr, hq, ihr]

theorem matchPieces_lits :
    ∀ (p b v : List Char),
      matchPieces (p.map fun c => RPiece.once (RAtom.lit c)) b = some v ↔
        (b = p ++ v ∧ versionTailMatches v = true) := by
  intro p
  induction p with
  | nil =>
    intro b v
    constructor
    · intro h
      by_cases ht : versionTailMatches b = true
      · simp [matchPieces, ht] at h
        subst h
        exact ⟨rfl, ht⟩
      · simp [matchPieces, ht] at h
    · rintro ⟨rfl, ht⟩
      simp at ht ⊢
      simp [matchPieces, ht]
  | cons c p ih =>
    intro b v
    cases b with
    | nil =>
      simp only [List.map_cons, matchPieces, List.cons_append]
      constructor
      · intro h; cases h
      · rintro ⟨heq, _⟩; cases heq
    | cons d b2 =>
      by_cases hcd : c = d
      · subst hcd
        have hm : matchRAtom (RAtom.lit c) c = true := by
          simp [matchRAtom]
        simp only [List.map_cons, matchPieces, hm, if_true,
          List.cons_append]
        rw [ih b2 v]
        constructor
        · rintro ⟨rfl, ht⟩
          exact ⟨rfl, ht⟩
        · rintro ⟨heq, ht⟩
          injection heq with _ h2
          exact ⟨h2, ht⟩
      · have hm : matchRAtom (RAtom.lit c) d = false := by
          simp [matchRAtom]
          exact hcd
        simp only [List.map_cons, matchPieces, hm, Bool.false_eq_true,
          if_false, List.cons_append]
        constructor
        · intro h; cases h
        · rintro ⟨heq, _⟩
          injection heq with h1 _
          exact absurd h1.symm hcd

theorem takeDigits_split (X r : List Char)
    (hX : ∀ c ∈ X, isDigitCh c = true)
    (hr : ∀ c r2, r = c :: r2 → isDigitCh c = false) :
    (X ++ r).takeWhile isDigitCh = X ∧ (X ++ r).dropWhile isDigitCh = r := by
  induction X with
  | nil =>
    cases r with
    | nil => simp
    | cons c r2 =>
      simp [List.takeWhile_cons, List.dropWhile_cons, hr c r2 rfl]
  | cons x X2 ih =>
    have hx := hX x (by simp)
    have hX2 : ∀ c ∈ X2, isDigitCh c = true := fun c hc => hX c (by simp [hc])
    have := ih hX2
    simp [List.takeWhile_cons, List.dropWhile_cons, hx, this.1, this.2]

theorem versionTail_iff (s : List Char) :
    versionTailMatches s = true ↔
      ∃ X Y Z, X ≠ [] ∧ Y ≠ [] ∧ Z ≠ [] ∧
        (∀ c ∈ X, isDigitCh c = true) ∧ (∀ c ∈ Y, isDigitCh c = true) ∧
        (∀ c ∈ Z, isDigitCh c = true) ∧
        s = X ++ '.' :: (Y ++ '.' :: Z) := by
  constructor
  · intro h
    unfold versionTailMatches takeDigitsL at h
    simp only [] at h
    split at h
    · cases h
    · rename_i hXe
      split at h
      · rename_i r2 hr1
        split at h
        · cases h
        · rename_i hYe
          split at h
          · rename_i r4 hr3
            simp only [Bool.and_eq_true, Bool.not_eq_eq_eq_not,
              Bool.not_true, List.isEmpty_eq_false,
              List.isEmpty_iff] at h hXe hYe
            refine ⟨s.takeWhile isDigitCh, r2.takeWhile isDigitCh,
              r4.takeWhile isDigitCh, ?_, ?_, ?_, ?_, ?_, ?_, ?_⟩
            · simpa using hXe
            · simpa using hYe
            · simpa [List.isEmpty_iff] using h.1
            · intro c hc; exact List.mem_takeWhile_imp hc
            · intro c hc; exact List.mem_takeWhile_imp hc
            · intro c hc; exact List.mem_takeWhile_imp hc
            · have e1 : s = s.takeWhile isDigitCh ++ ('.' :: r2) := by
                rw [← hr1]
                exact (List.takeWhile_append_dropWhile ..).symm
              have e2 : r2 = r2.takeWhile isDigitCh ++ ('.' :: r4) := by
                rw [← hr3]
                exact (List.takeWhile_append_dropWhile ..).symm
              have e3 : r4 = r4.takeWhile isDigitCh := by
                have h2 := h.2
                conv_lhs => rw [← List.takeWhile_append_dropWhile
                  (p := isDigitCh) (l := r4)]
                rw [h2, List.append_nil]
              rw [e3] at e2
              rw [e2] at e1
              exact e1
          · cases h
      · cases h
  · rintro ⟨X, Y, Z, hX0, hY0, hZ0, hXd, hYd, hZd, rfl⟩
    have hdot : isDigitCh '.' = false := by decide
    have s1 := takeDigits_split X ('.' :: (Y ++ '.' :: Z)) hXd
      (by intro c r2 hcr; cases hcr; exact hdot)
    have s2 := takeDigits_split Y ('.' :: Z) hYd
      (by intro c r2 hcr; cases hcr; exact hdot)
    have s3 := takeDigits_split Z [] hZd (by intro c r2 hcr; cases hcr)
    rw [List.append_nil] at s3
    unfold versionTailMatches takeDigitsL
    simp [s1.1, s1.2, s2.1, s2.2, s3.1, s3.2, List.isEmpty_iff, hX0, hY0,
      hZ0]

/-- C1 (amended): for every release prefix made only of regex-literal
characters (no metacharacter, dot or backslash — prefixes with such
characters are mis-handled because the prefix is spliced into the
pattern unescaped, see the counterexample), extraction succeeds with
`v` exactly when the branch name is the prefix followed by `v` and `v`
is `X.Y.Z` with nonempty digit strings `X`, `Y`, `Z`; every other
branch name fails. -/
theorem c1_extract_version (p b : List Char)
    (h : ∀ c ∈ p, isLiteralChar c = true) :
    (∀ v, extractVersionCore b p = some v ↔
      (b = p ++ v ∧ versionTailMatches v = true)) ∧
    (extractVersionCore b p = none ↔
      ¬∃ v, b = p ++ v ∧ versionTailMatches v = true) ∧
    (∀ v, versionTailMatches v = true ↔
      ∃ X Y Z, X ≠ [] ∧ Y ≠ [] ∧ Z ≠ [] ∧
        (∀ c ∈ X, isDigitCh c = true) ∧ (∀ c ∈ Y, isDigitCh c = true) ∧
        (∀ c ∈ Z, isDigitCh c = true) ∧
        v = X ++ '.' :: (Y ++ '.' :: Z)) := by
  have hparse : parsePieces (replaceFirstSlash p) =
      some (p.map fun c => RPiece.once (RAtom.lit c)) :=
    parseFuel_escaped_literal (replaceFirstSlash p).length p (Nat.le_refl _) h
  have hcore : ∀ v, extractVersionCore b p = some v ↔
      (b = p ++ v ∧ versionTailMatches v = true) := by
    intro v
    unfold extractVersionCore
    rw [hparse]
    exact matchPieces_lits p b v
  refine ⟨hcore, ?_, fun v => versionTail_iff v⟩
  constructor
  · rintro hnone ⟨v, hv⟩
    have := (hcore v).mpr hv
    rw [hnone] at this
    cases this
  · intro hno
    rcases hsome : extractVersionCore b p with _ | v
    · rfl
    · exact absurd ⟨v, (hcore v).mp hsome⟩ hno

theorem c1_extract_version_witness :
    (∀ c ∈ "release/".toList, isLiteralChar c = true) ∧
    extractVersionCore "release/1.2.3".toList "release/".toList =
      some "1.2.3".toList :=
  ⟨by decide,
    ((c1_extract_version "release/".toList "release/1.2.3".toList
      (by decide)).1 "1.2.3".toList).mpr ⟨by decide, by decide⟩⟩

theorem c5_build_archive_witness :
    mtaWorld.mtaYamlExists = true ∧
    (installDepsR mtaWorld).2 = Except.ok () ∧
    (runBuildR mtaWorld).2 = Except.ok () ∧
    buildProjectR mtaWorld "1.2.3" "proj" =
      ((installDepsR mtaWorld).1 ++ (runBuildR mtaWorld).1 ++
       [Ev.renameFile (mtaOrigPath mtaWorld "a.mtar")
         (mtaVersionedPath mtaWorld "proj" "1.2.3")] ++
       (updateMtaYamlR mtaWorld "1.2.3" mtaWorld.branches.current).1,
       Except.ok (mtaVersionedPath mtaWorld "proj" "1.2.3")) := by
  refine ⟨rfl, rfl, rfl, ?_⟩
  exact (((c5_build_archive mtaWorld "1.2.3" "proj" rfl rfl rfl).2.2.1
    ["a.mtar"] "a.mtar" [] rfl (by decide)).2 rfl)

end GitFlow
